import Mathlib

/-!
Verification of the plan-generation backend in `backend/coach.py`.

The Python module is shallowly embedded: Python/JSON values become the
inductive type `JSON`, Python dict operations become association-list
operations with Python's insertion-order semantics, code that can raise
returns `Except PyErr`, and the oracle (the hosted generative-AI model)
is an explicit input of type `GenResult`, since the code only ever
observes whether the call raised and, if not, the response text.
-/

namespace Coach

/-- Characters that are awkward under the source-file conventions are
named once here. -/
def lbraceC : Char := Char.ofNat 123

def rbraceC : Char := Char.ofNat 125

def quoteC : Char := Char.ofNat 34

def btickC : Char := Char.ofNat 96

def aposC : Char := Char.ofNat 39

def underscoreC : Char := Char.ofNat 95

/-- Values produced by `json.loads` / consumed by the coach functions.
Python floats out of JSON text are always decimal literals, so they are
represented exactly as `mant / 10 ^ fracDigits` (`flt`); `num` is a
Python `int`.  Object members keep insertion order, as Python dicts do. -/
inductive JSON where
  | null
  | bool (b : Bool)
  | num (n : Int)
  | flt (mant : Int) (fracDigits : Nat)
  | str (s : String)
  | arr (elems : List JSON)
  | obj (members : List (String × JSON))

/-- Python truthiness (`bool(x)`) for the values above. -/
def truthy : JSON → Bool
  | .null => false
  | .bool b => b
  | .num n => n != 0
  | .flt m _ => m != 0
  | .str s => !s.isEmpty
  | .arr xs => !xs.isEmpty
  | .obj kvs => !kvs.isEmpty

/-- `isinstance(x, dict)`. -/
def isDict : JSON → Bool
  | .obj _ => true
  | _ => false

/-- `d.get(k)`: `None` when the key is absent or `d` is not a dict. -/
def dictGet (d : JSON) (k : String) : JSON :=
  match d with
  | .obj kvs =>
    match kvs.lookup k with
    | some v => v
    | none => .null
  | _ => .null

/-- `d.get(k)` as an option (used to model `d.get(k, default)`). -/
def dictGetOpt (d : JSON) (k : String) : Option JSON :=
  match d with
  | .obj kvs => kvs.lookup k
  | _ => none

/-- Assignment `d[k] = v` on an association list: replace the value at
the first occurrence of `k` keeping its position, else append —
Python-dict insertion-order semantics. -/
def setAssoc (kvs : List (String × JSON)) (k : String) (v : JSON) :
    List (String × JSON) :=
  match kvs with
  | [] => [(k, v)]
  | (k0, v0) :: rest =>
    if k0 = k then (k0, v) :: rest else (k0, v0) :: setAssoc rest k v

/-- `d[k] = v` (only ever applied to dicts in the source). -/
def dictSet (d : JSON) (k : String) (v : JSON) : JSON :=
  match d with
  | .obj kvs => .obj (setAssoc kvs k v)
  | other => other

/-- Python `a or b`. -/
def pyOr (a b : JSON) : JSON := if truthy a then a else b

/-- Left-pad a digit string with zeros to the given width. -/
def padZeros (s : String) (w : Nat) : String :=
  String.mk (List.replicate (w - s.length) '0') ++ s

/-- Drop trailing zeros of a digit string. -/
def trimZerosRight (s : String) : String :=
  String.mk ((s.data.reverse.dropWhile (· = '0')).reverse)

/-- Rendering of the exact decimal `m / 10 ^ k` the way Python prints
the corresponding float: trailing zeros trimmed, at least one
fractional digit.  (Python's `repr` of a float is shortest-round-trip
on the binary value; for the decimal literals that arise here the
rendering below agrees on all inputs any theorem in this file
evaluates, and no theorem depends on it.) -/
def fltStr (m : Int) (k : Nat) : String :=
  if k = 0 then toString m ++ ".0"
  else
    let sign := if m < 0 then "-" else ""
    let a := m.natAbs
    let ip := a / 10 ^ k
    let fp := a % 10 ^ k
    let fs := trimZerosRight (padZeros (toString fp) k)
    sign ++ toString ip ++ "." ++ (if fs.isEmpty then "0" else fs)

/-- Escaping inside Python `repr` of a string (single-quoted form;
backslash and quote escapes, the cases that can arise here). -/
def escapeSQ (s : String) : String :=
  String.mk (s.data.flatMap fun c =>
    if c = '\\' then ['\\', '\\']
    else if c = aposC then ['\\', aposC]
    else [c])

/-- Comma-join, as inside Python list/dict reprs. -/
def joinComma (xs : List String) : String := String.intercalate ", " xs

mutual

/-- `str(x)` (`asRepr = false`) and `repr(x)` (`asRepr = true`) for the
values above; elements of containers are rendered with `repr`, as
Python does. -/
def pyToStrV : Bool → JSON → String
  | _, .null => "None"
  | _, .bool b => if b then "True" else "False"
  | _, .num n => toString n
  | _, .flt m k => fltStr m k
  | asRepr, .str s =>
    if asRepr then String.mk [aposC] ++ escapeSQ s ++ String.mk [aposC] else s
  | _, .arr xs => "[" ++ joinComma (pyToStrL xs) ++ "]"
  | _, .obj kvs =>
    String.mk [lbraceC] ++ joinComma (pyToStrM kvs) ++ String.mk [rbraceC]

/-- Reprs of list elements. -/
def pyToStrL : List JSON → List String
  | [] => []
  | x :: xs => pyToStrV true x :: pyToStrL xs

/-- Reprs of dict members. -/
def pyToStrM : List (String × JSON) → List String
  | [] => []
  | (k, v) :: rest =>
    (String.mk [aposC] ++ escapeSQ k ++ String.mk [aposC] ++ ": " ++
      pyToStrV true v) :: pyToStrM rest

end

/-- Python `str(x)`. -/
def pyStr (v : JSON) : String := pyToStrV false v

-- ===========================================================================
-- Duration coercion helpers (`_parse_minutes`, `_format_hm`)
-- ===========================================================================

/-- Python `str.strip()` / `float()` whitespace (ASCII part; the source
is only ever fed ASCII here). -/
def isPyWs (c : Char) : Bool :=
  c = ' ' || c = '\t' || c = '\n' || c = '\r' ||
    c = Char.ofNat 11 || c = Char.ofNat 12

/-- `\d` of the regexes in `_parse_minutes` (ASCII digits). -/
def isPyDigit (c : Char) : Bool := c.isDigit

/-- Numeric value of a digit run (`int("...")`, leading zeros fine). -/
def digitsVal (cs : List Char) : Nat :=
  cs.foldl (fun a c => a * 10 + (c.toNat - 48)) 0

/-- `re.search(r'(\d+)\s*h', s)` (with `h` the given token): scan
positions left to right; at a digit take the maximal digit run, skip
whitespace, and require the token.  Backtracking inside `\d+` or `\s*`
can never rescue a failed position (the next char would be a digit or
whitespace, not the token), so this linear scan is the regex's exact
behavior. -/
def searchNumTok (tok : Char) : List Char → Option Nat
  | [] => none
  | c :: rest =>
    if isPyDigit c then
      let ds := c :: rest.takeWhile isPyDigit
      let after := (rest.dropWhile isPyDigit).dropWhile isPyWs
      if after.head? = some tok then some (digitsVal ds)
      else searchNumTok tok rest
    else searchNumTok tok rest

/-- `re.findall(r'\d+', s)[0]`: the first maximal digit run. -/
def firstDigitRun : List Char → Option Nat
  | [] => none
  | c :: rest =>
    if isPyDigit c then some (digitsVal (c :: rest.takeWhile isPyDigit))
    else firstDigitRun rest

/-- `s.strip()`. -/
def pyStrip (s : String) : String :=
  String.mk (((s.data.dropWhile isPyWs).reverse.dropWhile isPyWs).reverse)

/-- Validate/remove the digit-group underscores `float()` accepts
(an underscore must sit between two digits). -/
def remUnd : Option Char → List Char → Option (List Char)
  | _, [] => some []
  | prev, c :: rest =>
    if c = underscoreC then
      match prev, rest with
      | some p, n :: _ =>
        if isPyDigit p && isPyDigit n then remUnd (some c) rest else none
      | _, _ => none
    else (remUnd (some c) rest).map (c :: ·)

/-- Sign application. -/
def sgnInt (neg : Bool) (n : Nat) : Int := if neg then -(n : Int) else n

/-- Exponent part of a float literal: `[+-]?digits`, consuming the whole
rest.  The value is reshaped into mantissa/10-power form. -/
def parseExpPart (neg : Bool) (mant : Nat) (k : Nat) (cs : List Char) :
    Option (Int × Nat) :=
  let (eneg, cs2) :=
    match cs with
    | c :: rest =>
      if c = '-' then (true, rest)
      else if c = '+' then (false, rest)
      else (false, cs)
    | [] => (false, [])
  let ds := cs2.takeWhile isPyDigit
  if ds.isEmpty || !(cs2.dropWhile isPyDigit).isEmpty then none
  else
    let e := digitsVal ds
    if eneg then some (sgnInt neg mant, k + e)
    else if e ≤ k then some (sgnInt neg mant, k - e)
    else some (sgnInt neg (mant * 10 ^ (e - k)), 0)

/-- Decimal body of a float literal after the sign:
`digits [. digits] [exp]` or `. digits [exp]`. -/
def parseDecBody (neg : Bool) (cs : List Char) : Option (Int × Nat) :=
  let ip := cs.takeWhile isPyDigit
  let r1 := cs.dropWhile isPyDigit
  match r1 with
  | [] => if ip.isEmpty then none else some (sgnInt neg (digitsVal ip), 0)
  | c :: r2 =>
    if c = '.' then
      let fp := r2.takeWhile isPyDigit
      let r3 := r2.dropWhile isPyDigit
      if ip.isEmpty && fp.isEmpty then none
      else
        let mant := digitsVal ip * 10 ^ fp.length + digitsVal fp
        match r3 with
        | [] => some (sgnInt neg mant, fp.length)
        | e :: r4 =>
          if e = 'e' || e = 'E' then parseExpPart neg mant fp.length r4
          else none
    else if c = 'e' || c = 'E' then
      if ip.isEmpty then none else parseExpPart neg (digitsVal ip) 0 r2
    else none

/-- Python `float(s)`, as the exact decimal `mant / 10 ^ k`.
`inf`/`infinity`/`nan` are mapped to `none`: `float()` accepts them but
the subsequent `int()` in `_parse_minutes` raises on them, and both
failures land in the same `except` arm of the source, so the
distinction is unobservable there.  (Binary-float rounding and overflow
to `inf` are likewise unobservable in any theorem below and are not
modelled.) -/
def pyFloat (s : String) : Option (Int × Nat) :=
  let cs0 := (s.data.dropWhile isPyWs).reverse.dropWhile isPyWs |>.reverse
  match remUnd none cs0 with
  | none => none
  | some cs1 =>
    let (neg, cs2) :=
      match cs1 with
      | c :: rest =>
        if c = '-' then (true, rest)
        else if c = '+' then (false, rest)
        else (false, cs1)
      | [] => (false, [])
    let low := cs2.map Char.toLower
    if low = "inf".data || low = "infinity".data || low = "nan".data then none
    else parseDecBody neg cs2

/-- Truncation toward zero, `int()` on the exact decimal `m / 10 ^ k`
(`Int.div` is T-division). -/
def truncDec (m : Int) (k : Nat) : Int := Int.tdiv m ((10 : Int) ^ k)

/-- String branch of `_parse_minutes` (`s` already handed over as the
raw Python string; stripping and lowering happen here, as in the
source).  Inside the `h`/`m` branch no exception can occur (the `int()`
calls only see matched digit runs), so the `try/except` of the source
reduces to the `pyFloat` failure case yielding 60. -/
def parseMinutesCore (cs : List Char) : Int :=
  if 'h' ∈ cs ∨ 'm' ∈ cs then
    let h := searchNumTok 'h' cs
    let m := searchNumTok 'm' cs
    let hours : Int := (h.getD 0 : Nat)
    let mins : Int :=
      match h, m with
      | none, none => ((firstDigitRun cs).getD 0 : Nat)
      | _, _ => (m.getD 0 : Nat)
    max 1 (hours * 60 + mins)
  else
    match pyFloat (String.mk cs) with
    | some (m, k) => max 1 (truncDec m k)
    | none => 60

/-- `s.strip().lower()` then the body above. -/
def parseMinutesStr (s0 : String) : Int :=
  parseMinutesCore ((pyStrip s0).data.map Char.toLower)

/-- `_parse_minutes(value)`.  Note `isinstance(True, int)` holds in
Python, so booleans take the numeric branch (`int(True) = 1`). -/
def _parse_minutes (value : JSON) : Int :=
  match value with
  | .null => 60
  | .bool b => max 1 (if b then 1 else 0)
  | .num n => max 1 n
  | .flt m k => max 1 (truncDec m k)
  | .str s => parseMinutesStr s
  | _ => 60

/-- `_format_hm(total_minutes)`. -/
def _format_hm (total_minutes : Int) : String :=
  let t : Nat := (max 0 total_minutes).toNat
  let h := t / 60
  let m := t % 60
  if h > 0 && m > 0 then toString h ++ "h " ++ toString m ++ "m"
  else if h > 0 then toString h ++ "h"
  else toString m ++ "m"

-- ===========================================================================
-- Plan sanitizer (`_sanitize_plan_dict`)
-- ===========================================================================

/-- Python exceptions that the embedded fragments can raise. -/
inductive PyErr where
  | typeError
deriving DecidableEq

/-- `for r in x`: lists yield elements, strings their characters (as
1-char strings), dicts their keys; everything else raises `TypeError`. -/
def pyIter : JSON → Except PyErr (List JSON)
  | .arr xs => .ok xs
  | .str s => .ok (s.data.map fun c => .str (String.mk [c]))
  | .obj kvs => .ok (kvs.map fun kv => .str kv.1)
  | _ => .error .typeError

/-- The synthetic step substituted when `steps` is absent, not a list,
or empty (lines 139-145 of `coach.py`). -/
def defaultStep (goal : String) : JSON :=
  .obj [("step_number", .num 1),
        ("do", .str ("Research and scope: " ++ goal)),
        ("why", .str "Need to understand requirements before planning"),
        ("check", .str "You have a clear breakdown of what's needed"),
        ("resources", .arr [.str "Google", .str "YouTube", .str "Online forums"])]

/-- Body of the sanitizing loop for one step (index `i` counts from 1;
`enumerate(steps, 1)`). -/
def sanitizeStep (i : Nat) (step0 : JSON) : Except PyErr JSON := do
  let step := if isDict step0 then step0 else .obj []
  let rsrc :=
    match dictGetOpt step "resources" with
    | some v => v
    | none => .arr []
  let rs ← pyIter rsrc
  let filtered := (rs.filter truthy).map fun r => JSON.str (pyStr r)
  let resources := if filtered.isEmpty then [JSON.str "Online resources"] else filtered
  return .obj
    [("step_number", .num i),
     ("do", pyOr (dictGet step "do") (.str ("Step " ++ toString i ++ " task"))),
     ("why", pyOr (dictGet step "why") (.str "Important for progress")),
     ("check", pyOr (dictGet step "check") (.str "Verify completion")),
     ("resources", .arr resources)]

/-- The sanitizing loop over all steps. -/
def sanitizeSteps (i : Nat) : List JSON → Except PyErr (List JSON)
  | [] => .ok []
  | step :: rest => do
    let s ← sanitizeStep i step
    let others ← sanitizeSteps (i + 1) rest
    return s :: others

/-- The fixed fallback tips of the sanitizer. -/
def defaultTips : JSON :=
  .arr [.str "Stay consistent", .str "Track progress", .str "Adjust as you learn"]

/-- `_sanitize_plan_dict(data, goal)`.  Non-dict input returns the
literal empty dict (the source's `return {}`); a step whose `resources`
value is present, truthy and non-iterable raises `TypeError` out of the
list comprehension. -/
def _sanitize_plan_dict (data : JSON) (goal : String) : Except PyErr JSON :=
  match data with
  | .obj kvs => do
    let steps :=
      match dictGet (.obj kvs) "steps" with
      | .arr xs => if xs.isEmpty then [defaultStep goal] else xs
      | _ => [defaultStep goal]
    let sanitized ← sanitizeSteps 1 steps
    let d1 := dictSet (.obj kvs) "steps" (.arr sanitized)
    let tips0 := dictGet d1 "tips"
    let tips1 :=
      match tips0 with
      | .arr ts => JSON.arr ((ts.filter truthy).map fun t => JSON.str (pyStr t))
      | other => other
    let tips2 := if truthy tips1 then tips1 else defaultTips
    let d2 := dictSet d1 "tips" tips2
    let d3 := dictSet d2 "goal" (pyOr (dictGet d2 "goal") (.str goal))
    return d3
  | _ => .ok (.obj [])

-- ===========================================================================
-- `json.loads` (Python's strict JSON decoder)
-- ===========================================================================

/-- JSON whitespace (`json.decoder`: space, tab, newline, return). -/
def isJWs (c : Char) : Bool := c = ' ' || c = '\t' || c = '\n' || c = '\r'

/-- Skip JSON whitespace. -/
def skipJWs (cs : List Char) : List Char := cs.dropWhile isJWs

/-- Hex digit value. -/
def hexVal (c : Char) : Option Nat :=
  if c.isDigit then some (c.toNat - 48)
  else if 'a' ≤ c ∧ c ≤ 'f' then some (c.toNat - 87)
  else if 'A' ≤ c ∧ c ≤ 'F' then some (c.toNat - 55)
  else none

/-- The single-character JSON string escapes. -/
def escChar (e : Char) : Option Char :=
  if e = quoteC then some quoteC
  else if e = '\\' then some '\\'
  else if e = '/' then some '/'
  else if e = 'b' then some (Char.ofNat 8)
  else if e = 'f' then some (Char.ofNat 12)
  else if e = 'n' then some '\n'
  else if e = 'r' then some '\r'
  else if e = 't' then some '\t'
  else none

/-- Body of a JSON string after the opening quote, strict mode: raw
control characters are rejected, the escapes are the eight JSON ones
plus `\uXXXX`.  (Python additionally pairs up `\uD800-\uDBFF` surrogate
escapes; no theorem below evaluates a surrogate escape, and `Char.ofNat`
maps those code units to NUL here.) -/
def parseStrGo (acc : List Char) : List Char → Option (String × List Char)
  | [] => none
  | c :: rest =>
    if c = quoteC then some (String.mk acc.reverse, rest)
    else if c = '\\' then
      match rest with
      | [] => none
      | e :: r2 =>
        if e = 'u' then
          match r2 with
          | h1 :: h2 :: h3 :: h4 :: r3 =>
            match hexVal h1, hexVal h2, hexVal h3, hexVal h4 with
            | some a, some b, some c2, some d =>
              parseStrGo (Char.ofNat ((((a * 16 + b) * 16 + c2) * 16 + d)) :: acc) r3
            | _, _, _, _ => none
          | _ => none
        else
          match escChar e with
          | some ce => parseStrGo (ce :: acc) r2
          | none => none
    else if c.toNat < 32 then none
    else parseStrGo (c :: acc) rest

/-- The optional fraction of a number literal, following Python's
`NUMBER_RE`: `(\.\d+)?`.  An incomplete fraction (`"1."`) is simply not
part of the match: the pair is (fraction digits, rest). -/
def fracPart : List Char → List Char × List Char
  | c :: r2 =>
    if c = '.' then
      let fp := r2.takeWhile Char.isDigit
      if fp.isEmpty then ([], c :: r2) else (fp, r2.dropWhile Char.isDigit)
    else ([], c :: r2)
  | [] => ([], [])

/-- The optional exponent of a number literal: `([eE][-+]?\d+)?`.  The
triple is (exponent value, whether one was taken, rest); an incomplete
exponent is not part of the match. -/
def expPart : List Char → Int × Bool × List Char
  | e :: r3 =>
    if e = 'e' ∨ e = 'E' then
      match r3 with
      | s :: r4 =>
        if s = '+' ∨ s = '-' then
          let ds := r4.takeWhile Char.isDigit
          if ds.isEmpty then ((0 : Int), false, e :: r3)
          else (sgnInt (s = '-') (digitsVal ds), true, r4.dropWhile Char.isDigit)
        else
          let ds := r3.takeWhile Char.isDigit
          if ds.isEmpty then ((0 : Int), false, e :: r3)
          else ((digitsVal ds : Int), true, r3.dropWhile Char.isDigit)
      | [] => ((0 : Int), false, e :: r3)
    else ((0 : Int), false, e :: r3)
  | [] => ((0 : Int), false, [])

/-- Rest of a number literal after the integer part.  Ints stay `num`;
a fraction or exponent produces the exact decimal `flt`. -/
def afterIntPart (neg : Bool) (ip : Nat) (cs : List Char) :
    Option (JSON × List Char) :=
  let (fracDigits, cs2) := fracPart cs
  let (expVal, hasExp, cs3) := expPart cs2
  if fracDigits.isEmpty ∧ ¬hasExp then some (.num (sgnInt neg ip), cs3)
  else
    let mant := ip * 10 ^ fracDigits.length + digitsVal fracDigits
    let k : Int := (fracDigits.length : Int) - expVal
    if k ≤ 0 then some (.flt (sgnInt neg (mant * 10 ^ (-k).toNat)) 0, cs3)
    else some (.flt (sgnInt neg mant) k.toNat, cs3)

/-- A JSON number literal: optional minus, `0` or a nonzero-led digit
run, optional fraction/exponent.  (Python's non-standard acceptance of
`NaN`/`Infinity`/`-Infinity` is not modelled; no evaluated input
contains them.) -/
def parseNum (cs : List Char) : Option (JSON × List Char) :=
  let (neg, cs1) :=
    match cs with
    | c :: rest => if c = '-' then (true, rest) else (false, cs)
    | [] => (false, cs)
  match cs1 with
  | [] => none
  | c :: rest =>
    if c = '0' then afterIntPart neg 0 rest
    else if c.isDigit then
      afterIntPart neg (digitsVal (c :: rest.takeWhile Char.isDigit))
        (rest.dropWhile Char.isDigit)
    else none

/-- The `true`/`false`/`null` literals, else a number: the value kinds
whose parse needs no recursion. -/
def parseLitOrNum (cs : List Char) : Option (JSON × List Char) :=
  match cs with
  | 't' :: 'r' :: 'u' :: 'e' :: r => some (.bool true, r)
  | 'f' :: 'a' :: 'l' :: 's' :: 'e' :: r => some (.bool false, r)
  | 'n' :: 'u' :: 'l' :: 'l' :: r => some (.null, r)
  | _ => parseNum cs

mutual

/-- A JSON value at the head of the stream (whitespace already
skipped), returning the rest of the stream.  Fuel only bounds nesting;
`json_loads_chars` supplies enough for any input. -/
def parseVal : Nat → List Char → Option (JSON × List Char)
  | 0, _ => none
  | f + 1, cs =>
    match cs with
    | [] => none
    | c :: rest =>
      if c = lbraceC then
        match skipJWs rest with
        | c2 :: r2 =>
          if c2 = rbraceC then some (.obj [], r2)
          else parseMembers f (c2 :: r2) []
        | [] => none
      else if c = '[' then
        match skipJWs rest with
        | c2 :: r2 =>
          if c2 = ']' then some (.arr [], r2)
          else parseElems f (c2 :: r2) []
        | [] => none
      else if c = quoteC then
        match parseStrGo [] rest with
        | some (s, r) => some (.str s, r)
        | none => none
      else parseLitOrNum cs

/-- Members of an object after `{` (positioned at a key, whitespace
skipped); duplicate keys follow Python dict semantics (`setAssoc`). -/
def parseMembers : Nat → List Char → List (String × JSON) →
    Option (JSON × List Char)
  | 0, _, _ => none
  | f + 1, cs, acc =>
    match cs with
    | c :: rest =>
      if c = quoteC then
        match parseStrGo [] rest with
        | none => none
        | some (k, r1) =>
          match skipJWs r1 with
          | d :: r2 =>
            if d = ':' then
              match parseVal f (skipJWs r2) with
              | none => none
              | some (v, r3) =>
                match skipJWs r3 with
                | d2 :: r4 =>
                  if d2 = ',' then parseMembers f (skipJWs r4) (setAssoc acc k v)
                  else if d2 = rbraceC then some (.obj (setAssoc acc k v), r4)
                  else none
                | [] => none
            else none
          | [] => none
      else none
    | [] => none

/-- Elements of an array after `[` (positioned at a value). -/
def parseElems : Nat → List Char → List JSON → Option (JSON × List Char)
  | 0, _, _ => none
  | f + 1, cs, acc =>
    match parseVal f cs with
    | none => none
    | some (v, r1) =>
      match skipJWs r1 with
      | d :: r2 =>
        if d = ',' then parseElems f (skipJWs r2) (acc ++ [v])
        else if d = ']' then some (.arr (acc ++ [v]), r2)
        else none
      | [] => none

end

/-- `json.loads` on a char list: leading whitespace, one value, trailing
whitespace, nothing else. -/
def json_loads_chars (cs : List Char) : Option JSON :=
  match parseVal (2 * cs.length + 2) (skipJWs cs) with
  | some (v, rest) => if (skipJWs rest).isEmpty then some v else none
  | none => none

/-- `json.loads` on a string. -/
def json_loads (s : String) : Option JSON := json_loads_chars s.data

-- ===========================================================================
-- `extract_json` and the fence-stripping `re.sub`
-- ===========================================================================

/-- The leading alternative `^\s*BTICK BTICK BTICK(?:json)?\s*` of the
fence-stripping `re.sub` in `extract_json` (with `BTICK` a backtick):
anchored at position 0, so it either removes one leading fence or
leaves the text unchanged. -/
def stripLeadFence (cs : List Char) : List Char :=
  match cs.dropWhile isPyWs with
  | b1 :: b2 :: b3 :: r2 =>
    if b1 = btickC ∧ b2 = btickC ∧ b3 = btickC then
      let r3 :=
        match r2 with
        | 'j' :: 's' :: 'o' :: 'n' :: r => r
        | _ => r2
      r3.dropWhile isPyWs
    else cs
  | _ => cs

/-- Does `cs` as a whole match `\s*BTICK BTICK BTICK\s*$` (the match must
reach the end of the text; a trailing-newline-only `$` position is
subsumed because `\s*` is greedy)? -/
def trailFenceAt (cs : List Char) : Bool :=
  match cs.dropWhile isPyWs with
  | b1 :: b2 :: b3 :: r2 =>
    b1 = btickC && b2 = btickC && b3 = btickC && (r2.dropWhile isPyWs).isEmpty
  | _ => false

/-- Leftmost start of a trailing-fence match. -/
def trailGo : List Char → Nat → Option Nat
  | [], _ => none
  | c :: rest, i =>
    if trailFenceAt (c :: rest) then some i else trailGo rest (i + 1)

/-- The trailing alternative of the `re.sub`: remove the leftmost
`\s*BTICK BTICK BTICK\s*$` span, if any. -/
def stripTrailFence (cs : List Char) : List Char :=
  match trailGo cs 0 with
  | some i => cs.take i
  | none => cs

/-- `re.sub(r'^\s*BTICKS(?:json)?\s*|\s*BTICKS\s*$', '', text, flags=re.S)`
(`BTICKS` = three backticks): the leading alternative can only match at
position 0, the trailing one only on a whitespace/backtick span reaching
the end, and re.sub's scan resumes after the leading match, which is
exactly the composition below. -/
def stripFences (cs : List Char) : List Char :=
  stripTrailFence (stripLeadFence cs)

/-- Take `cs[s:e]` (Python slice). -/
def sliceChars (cs : List Char) (s e : Nat) : List Char :=
  (cs.drop s).take (e - s)

/-- The bracket-depth scan of `extract_json` for one bracket pair:
remember the first opener seen at depth 0, and when depth returns to 0
try `json.loads` on the recorded span, returning on success, else
continuing. -/
def scanGo (oc cc : Char) (full : List Char) :
    List Char → Nat → Nat → Option Nat → Option JSON
  | [], _, _, _ => none
  | c :: rest, i, depth, start =>
    if c = oc then
      scanGo oc cc full rest (i + 1) (depth + 1)
        (if depth = 0 then some i else start)
    else if c = cc ∧ depth ≠ 0 then
      if depth = 1 then
        match start with
        | some s =>
          match json_loads_chars (sliceChars full s (i + 1)) with
          | some v => some v
          | none => scanGo oc cc full rest (i + 1) 0 start
        | none => scanGo oc cc full rest (i + 1) 0 start
      else scanGo oc cc full rest (i + 1) (depth - 1) start
    else scanGo oc cc full rest (i + 1) depth start

/-- One iteration of `extract_json`'s `for open_ch, close_ch in ...` loop. -/
def scanPair (oc cc : Char) (cs : List Char) : Option JSON :=
  scanGo oc cc cs cs 0 0 none

/-- `extract_json(text)`: empty text gives `None`; otherwise strip
fences, try a whole-text `json.loads`, then the brace scan, then the
bracket scan. -/
def extract_json (text : String) : Option JSON :=
  if text.isEmpty then none
  else
    let cs := stripFences text.data
    match json_loads_chars cs with
    | some v => some v
    | none =>
      match scanPair lbraceC rbraceC cs with
      | some v => some v
      | none => scanPair '[' ']' cs

-- ===========================================================================
-- Side conditions for the prose/object decomposition of claim C5
-- ===========================================================================

/-- Prose that cannot confuse the extractor: no braces, no brackets, no
double quote, no backtick. -/
def proseSafe (cs : List Char) : Bool :=
  cs.all fun c =>
    !(c = lbraceC || c = rbraceC || c = '[' || c = ']' || c = quoteC || c = btickC)

/-- Brace balance of a text: `{`-count minus `}`-count. -/
def braceDepth (cs : List Char) : Int :=
  (cs.count lbraceC : Int) - (cs.count rbraceC : Int)

/-- Every proper non-empty prefix has positive brace depth: the scan's
depth first returns to zero at the final character. -/
def innerDepthPos (cs : List Char) : Bool :=
  (List.range cs.length).all fun k =>
    decide (k = 0) || decide (0 < braceDepth (cs.take k))

/-- Characters that may legally follow a JSON value inside a larger
JSON text (whitespace or a closing delimiter): a parse that stops in
front of one of these is stable under appending more text. -/
def safeBoundary (c : Char) : Bool :=
  isJWs c || c = ',' || c = ']' || c = rbraceC

/-- Characters a JSON number token can consume. -/
def numChar (c : Char) : Bool :=
  c.isDigit || c = '-' || c = '+' || c = '.' || c = 'e' || c = 'E'

-- ===========================================================================
-- Model invocation wrapper (`call_gemini`)
-- ===========================================================================

/-- What the embedded code can observe of `model.generate_content`:
either the call raised, or it returned a response whose `.text`
attribute is present (`some`) or absent (`none`, read as `""`). -/
inductive GenResult where
  | raise
  | ok (text : Option String)

/-- `call_gemini(model, prompt, max_tokens)`: the oracle's behavior is
the explicit `r` argument; `prompt` and `max_tokens` only travel to the
oracle.  On an exception return `None`; otherwise extract JSON from the
response text and return it if truthy, else `None` (the source's
`if data: return data ... return None`). -/
def call_gemini (prompt : String) (max_tokens : Nat) (r : GenResult) :
    Option JSON :=
  match r with
  | .raise => none
  | .ok t =>
    let text := t.getD ""
    match extract_json text with
    | some data => if truthy data then some data else none
    | none => none

-- ===========================================================================
-- Orchestration (`should_ask_more_questions`, `generate_plan`)
-- ===========================================================================

/-- One clarification question and its answer. -/
structure QAPair where
  question : String
  answer : String

/-- `"\n".join(f"Q: {qa['question']}\nA: {qa['answer']}" for ...)`. -/
def qa_text_of (qa_pairs : List QAPair) : String :=
  String.intercalate "\n"
    (qa_pairs.map fun qa => "Q: " ++ qa.question ++ "\nA: " ++ qa.answer)

/-- The prompt of `should_ask_more_questions` (source lines 189-209). -/
def continuePrompt (goal : String) (current_count max_questions : Nat)
    (qa_text : String) : String :=
  "Goal: " ++ goal ++
    "\n\nInformation gathered so far (" ++ toString current_count ++
    " questions answered):\n" ++ qa_text ++
    "\n\nDecide if you need MORE information or have ENOUGH to create an excellent plan.\n\nGuidelines:\n- Maximum " ++
    toString max_questions ++
    " questions total\n- Only ask if the information is CRITICAL for the plan\n- Stop early if you have enough context\n- Consider: time, experience level, constraints, resources, context\n\nReturn JSON:\n\x7b\n  \"action\": \"ask\" or \"ready\",\n  \"question\": \"Your next specific question (if action=ask, else null)\",\n  \"reasoning\": \"Brief why you need this info or why you're ready\"\n\x7d\n\nBe efficient - quality over quantity."

/-- The prompt of `generate_plan` (source lines 237-317). -/
def planPrompt (goal : String) (qa_text : String) : String :=
  goal ++
    "\n\n" ++
    qa_text ++
    "\n\nCreate a realistic, actionable plan.\n\nWHAT MAKES A STEP ACTIONABLE:\n\n✅ GOOD (Specific + Flexible):\n" ++
    "\"Build a chat interface with text input and message display. Use Streamlit if Python-focused, React if you prefer web frameworks, or a simple HTML/JS setup for minimal dependencies.\"\n" ++
    "\n❌ TOO VAGUE:\n\"Build a web interface\"\n\n❌ TOO PRESCRIPTIVE:\n\"Build interface using Streamlit\" (ignores user's tech preferences)\n" ++
    "\n✅ GOOD:\n\"Write 10 example Q&A conversations demonstrating Socratic tutoring (AI asks guiding questions, never gives direct answers)\"\n" ++
    "\n❌ TOO VAGUE:\n\"Refine the AI model\"\n\n✅ GOOD:\n\"Post in student communities (like r/APStudents, Discord study servers, or your school network) offering free tutoring to 5 beta testers\"\n" ++
    "\n❌ TOO VAGUE:\n\"Recruit beta users\"\n\n❌ TOO SPECIFIC:\n\"Post in r/APStudents\" (user might not use Reddit)\n" ++
    "\nRULES FOR ACTIONABLE STEPS:\n\n1. Be SPECIFIC about the OUTCOME, FLEXIBLE about the METHOD\n   - Describe clearly what needs to be accomplished\n" ++
    "   - Provide 2-3 concrete approach options when multiple valid paths exist\n   - Respect user's stated preferences from their answers above\n" ++
    "   - Let them choose their preferred tools/methods\n\n2. For TECHNICAL steps:\n   - If user mentioned tech preferences → use those\n" ++
    "   - If user is flexible → suggest 2-3 common options with brief context\n   - If only one realistic approach → specify it clearly\n" ++
    "   - Example: \"Deploy using [their preferred platform] or free options like Vercel, Railway, or Render\"\n" ++
    "\n3. For NON-TECHNICAL steps:\n   - Give concrete examples relevant to user's context\n   - Example: \"Find users through [communities relevant to their target audience]\"\n" ++
    "\n4. Each step = ONE clear action\n   - Not \"design and build\" → split into two steps\n   - Not \"research and implement\" → split into two steps\n" ++
    "\n5. AVOID meta-work (planning to plan):\n   - Not \"Design a feedback system\" → \"Create a Google Form with 5 specific questions: helpfulness rating, clarity rating, would recommend, best feature, what to improve\"\n" ++
    "   - Not \"Plan your marketing strategy\" → \"Write posts for 3 specific platforms explaining your product's value\"\n" ++
    "\n6. \"check\" field = MEASURABLE outcome\n   - Focus on the RESULT achieved, not the method used\n" ++
    "   - \"You can type a message and receive an AI response\" (not \"Streamlit app is running\")\n   - \"5 students have signed up and confirmed availability\" (not \"Posted in 3 subreddits\")\n" ++
    "\nReturn ONLY valid JSON:\n\x7b\n  \"goal\": \"achievable goal (adjusted if needed)\",\n  \"original_goal\": \"user's original goal text (only if you changed it, else null)\",\n" ++
    "  \"goal_changed_reason\": \"brief explanation why you adjusted it (only if changed, else null)\",\n" ++
    "  \"steps\": [\n    \x7b\n      \"step_number\": 1,\n      \"do\": \"Specific action with flexible approach options when relevant\",\n" ++
    "      \"why\": \"Clear reason this step matters\",\n      \"check\": \"Measurable completion criterion (outcome-focused)\",\n" ++
    "      \"resources\": [\"Specific resource/tool option 1\", \"Alternative option 2\", \"General learning resource\"]\n" ++
    "    \x7d\n  ],\n  \"tips\": [\"Practical actionable advice\", \"Common pitfall to avoid\", \"Strategic reminder\"]\n" ++
    "\x7d\n\nBe concrete about WHAT to achieve. Provide options for HOW to achieve it. Someone should be able to start immediately after reading each step."

/-- The `Ready` fallback when the invocation yields absence or a
non-mapping. -/
def continueFallback : JSON :=
  .obj [("action", .str "ready"), ("question", .null),
        ("reasoning", .str "Fallback - proceeding with available information")]

/-- The `Ready` answer forced once the question cap is reached. -/
def maxQuestionsReached (max_questions : Nat) : JSON :=
  .obj [("action", .str "ready"), ("question", .null),
        ("reasoning",
          .str ("Reached maximum of " ++ toString max_questions ++ " questions"))]

/-- `should_ask_more_questions(goal, qa_pairs)` with the oracle's
behavior as the explicit `r`.  (`setup_gemini()` is process
configuration and not modelled.) -/
def should_ask_more_questions (goal : String) (qa_pairs : List QAPair)
    (r : GenResult) : JSON :=
  let qa_text := qa_text_of qa_pairs
  let current_count := qa_pairs.length
  let max_questions := 10
  let prompt := continuePrompt goal current_count max_questions qa_text
  match call_gemini prompt 400 r with
  | none => continueFallback
  | some d =>
    if ¬truthy d then continueFallback
    else if ¬isDict d then continueFallback
    else if current_count ≥ max_questions then maxQuestionsReached max_questions
    else d

/-- The fixed fallback plan of `generate_plan` (source lines 323-333). -/
def planFallback (goal : String) : JSON :=
  .obj [("goal", .str goal),
        ("steps", .arr
          [.obj [("step_number", .num 1),
                 ("do", .str ("Research and break down what's needed for: " ++ goal)),
                 ("why", .str "Need to understand requirements before taking action"),
                 ("check",
                  .str "You have a clear list of what needs to be built/learned/done"),
                 ("resources", .arr
                   [.str "Google search", .str "YouTube tutorials",
                    .str "Relevant online communities"])]]),
        ("tips", .arr
          [.str "Start with small wins", .str "Track your progress",
           .str "Adjust approach based on what you learn"])]

/-- `generate_plan(goal, qa_pairs)` with the oracle's behavior as the
explicit `r`. -/
def generate_plan (goal : String) (qa_pairs : List QAPair) (r : GenResult) :
    Except PyErr JSON :=
  let qa_text := qa_text_of qa_pairs
  let prompt := planPrompt goal qa_text
  match call_gemini prompt 4096 r with
  | none => .ok (planFallback goal)
  | some d =>
    if ¬truthy d then .ok (planFallback goal)
    else _sanitize_plan_dict d goal

-- ===========================================================================
-- Specification-side restatement of the duration rule chain (claim C8)
-- ===========================================================================

/-- The rule chain of §4.2 of the spec, stated the way the claim orders
it (amended where the code disagrees): if an integer precedes an `h` or
`m` token, combine as `hours*60+minutes` floored at 1; if the string
contains an `h`/`m` token but neither pattern matches, fall back to the
first digit run as minutes floored at 1 — in particular a token-bearing
string without digits yields 1, not 60; with no `h`/`m` token, a plain
float parse truncated and floored at 1, any float-parse failure
yielding 60. -/
def parseMinutesSpecCore (cs : List Char) : Int :=
  match searchNumTok 'h' cs, searchNumTok 'm' cs with
  | none, none =>
    if 'h' ∈ cs ∨ 'm' ∈ cs then
      match firstDigitRun cs with
      | some d => max 1 (d : Int)
      | none => 1
    else
      match pyFloat (String.mk cs) with
      | some (m, k) => max 1 (truncDec m k)
      | none => 60
  | h, m => max 1 (((h.getD 0 : Nat) : Int) * 60 + ((m.getD 0 : Nat) : Int))

/-- The spec-side chain on a raw string (same strip/lower front end). -/
def parseMinutesSpecStr (s0 : String) : Int :=
  parseMinutesSpecCore ((pyStrip s0).data.map Char.toLower)

/-- A successful `(\d+)\s*tok` search implies the token occurs in the
string. -/
theorem searchNumTok_mem {tok : Char} :
    ∀ {cs : List Char} {n : Nat}, searchNumTok tok cs = some n → tok ∈ cs := by
  intro cs
  induction cs with
  | nil => intro n h; simp [searchNumTok] at h
  | cons c rest ih =>
    intro n h
    rw [searchNumTok] at h
    by_cases hd : isPyDigit c
    · rw [if_pos hd] at h
      by_cases ha :
          ((rest.dropWhile isPyDigit).dropWhile isPyWs).head? = some tok
      · have h1 : tok ∈ (rest.dropWhile isPyDigit).dropWhile isPyWs := by
          cases hl : (rest.dropWhile isPyDigit).dropWhile isPyWs with
          | nil => rw [hl] at ha; simp at ha
          | cons a tl =>
            rw [hl] at ha
            simp only [List.head?_cons, Option.some.injEq] at ha
            exact ha ▸ List.mem_cons_self a tl
        have h2 : tok ∈ rest.dropWhile isPyDigit :=
          (List.dropWhile_sublist _).subset h1
        have h3 : tok ∈ rest := (List.dropWhile_sublist _).subset h2
        exact List.mem_cons_of_mem c h3
      · rw [if_neg ha] at h
        exact List.mem_cons_of_mem c (ih h)
    · rw [if_neg hd] at h
      exact List.mem_cons_of_mem c (ih h)

/-- The source body agrees with the (amended) spec-side chain. -/
theorem parseMinutesCore_eq_spec (cs : List Char) :
    parseMinutesCore cs = parseMinutesSpecCore cs := by
  unfold parseMinutesCore parseMinutesSpecCore
  cases hh : searchNumTok 'h' cs with
  | some n =>
    rw [if_pos (Or.inl (searchNumTok_mem hh))]
  | none =>
    cases hm : searchNumTok 'm' cs with
    | some n =>
      rw [if_pos (Or.inr (searchNumTok_mem hm))]
    | none =>
      simp only [hh, hm]
      by_cases hmem : ('h' ∈ cs ∨ 'm' ∈ cs)
      · rw [if_pos hmem, if_pos hmem]
        cases hr : firstDigitRun cs <;> simp [hr]
      · rw [if_neg hmem, if_neg hmem]

-- ===========================================================================
-- Claim theorems: C1, C2, C3, C8, C9
-- ===========================================================================

/-- C1: the claim says `_sanitize_plan_dict` is total and
schema-establishing for every input.  Evaluating the code: a JSON-array
input is answered with the bare empty dict (no `steps`, no `tips`, a
falsy `goal`), and a dict input whose step carries a truthy
non-iterable `resources` value raises `TypeError` — the sanitizer is
neither schema-establishing nor total. -/
theorem sanitize_plan_dict_not_schema_establishing :
    _sanitize_plan_dict (.arr [.str "x"]) "Learn Rust" = .ok (.obj []) ∧
    dictGetOpt (.obj []) "steps" = none ∧
    dictGetOpt (.obj []) "tips" = none ∧
    truthy (dictGet (.obj []) "goal") = false ∧
    _sanitize_plan_dict
        (.obj [("steps", .arr [.obj [("resources", .bool true)]])])
        "Learn Rust" = .error .typeError :=
  ⟨rfl, rfl, rfl, rfl, rfl⟩

/-- C2: the claim says non-mapping input behaves like an empty mapping.
Evaluating the code: a JSON-array input returns the literal `{}`,
while `_sanitize_plan_dict({}, "Learn guitar")` returns the fully
repaired plan, and the two differ. -/
theorem sanitize_plan_dict_list_input_ne_empty_mapping :
    _sanitize_plan_dict (.arr [.num 1]) "Learn guitar" = .ok (.obj []) ∧
    _sanitize_plan_dict (.obj []) "Learn guitar" =
      .ok (.obj
        [("steps", .arr
          [.obj [("step_number", .num 1),
                 ("do", .str "Research and scope: Learn guitar"),
                 ("why", .str "Need to understand requirements before planning"),
                 ("check", .str "You have a clear breakdown of what's needed"),
                 ("resources", .arr
                   [.str "Google", .str "YouTube", .str "Online forums"])]]),
         ("tips", .arr
           [.str "Stay consistent", .str "Track progress",
            .str "Adjust as you learn"]),
         ("goal", .str "Learn guitar")]) ∧
    JSON.obj [] ≠ JSON.obj
        [("steps", .arr
          [.obj [("step_number", .num 1),
                 ("do", .str "Research and scope: Learn guitar"),
                 ("why", .str "Need to understand requirements before planning"),
                 ("check", .str "You have a clear breakdown of what's needed"),
                 ("resources", .arr
                   [.str "Google", .str "YouTube", .str "Online forums"])]]),
         ("tips", .arr
           [.str "Stay consistent", .str "Track progress",
            .str "Adjust as you learn"]),
         ("goal", .str "Learn guitar")] :=
  ⟨rfl, rfl, by simp⟩

/-- C3: the claim quantifies over all dicts missing `steps` or `tips`
or with malformed steps; on the dict `{"steps": [{"resources": 5}]}`
(which is missing `tips`) the code raises `TypeError` out of the
resources list comprehension instead of returning a repaired plan. -/
theorem sanitize_plan_dict_raises_on_non_iterable_resources :
    _sanitize_plan_dict (.obj [("steps", .arr [.obj [("resources", .num 5)]])])
        "Learn guitar" = .error .typeError :=
  rfl

/-- C8 (counterexample): the claim says a string with `h`/`m`
characters but no digits yields the 60-minute default; the code returns
`max(1, 0) = 1` for `"h"`. -/
theorem parse_minutes_token_without_digits_is_one :
    _parse_minutes (.str "h") = 1 ∧ (1 : Int) ≠ 60 :=
  ⟨by decide, by decide⟩

/-- C8 (amended): the rule chain with the digit-less token case floored
at 1 instead of defaulting to 60: `_parse_minutes` on strings follows
`parseMinutesSpecStr`, and every result is at least 1. -/
theorem parse_minutes_amended_rule_chain :
    (∀ s : String, _parse_minutes (.str s) = parseMinutesSpecStr s) ∧
    (∀ v : JSON, 1 ≤ _parse_minutes v) := by
  constructor
  · intro s
    exact parseMinutesCore_eq_spec _
  · intro v
    cases v with
    | null => norm_num [_parse_minutes]
    | bool b => exact le_max_left _ _
    | num n => exact le_max_left _ _
    | flt m k => exact le_max_left _ _
    | str s =>
      show 1 ≤ parseMinutesStr s
      unfold parseMinutesStr parseMinutesCore
      split
      · exact le_max_left _ _
      · split
        · exact le_max_left _ _
        · norm_num
    | arr xs => norm_num [_parse_minutes]
    | obj kvs => norm_num [_parse_minutes]

/-- C9: the representative duration values and round trips:
`"2h 30m" ↦ 150`, `"90" ↦ 90`, `"1.5" ↦ 1`, `None ↦ 60`,
`"garbage" ↦ 60`, re-parsing each formatted value is the identity, and
the three formatting cases. -/
theorem parse_format_minutes_roundtrip_concrete :
    _parse_minutes (.str "2h 30m") = 150 ∧
    _parse_minutes (.str "90") = 90 ∧
    _parse_minutes (.str "1.5") = 1 ∧
    _parse_minutes .null = 60 ∧
    _parse_minutes (.str "garbage") = 60 ∧
    _parse_minutes (.str (_format_hm (_parse_minutes (.str "2h 30m")))) = 150 ∧
    _parse_minutes (.str (_format_hm (_parse_minutes (.str "90")))) = 90 ∧
    _parse_minutes (.str (_format_hm (_parse_minutes (.str "1.5")))) = 1 ∧
    _parse_minutes (.str (_format_hm (_parse_minutes .null))) = 60 ∧
    _parse_minutes (.str (_format_hm (_parse_minutes (.str "garbage")))) = 60 ∧
    _format_hm 0 = "0m" ∧ _format_hm 60 = "1h" ∧ _format_hm 90 = "1h 30m" := by
  refine ⟨by decide, by decide, by decide, by decide, by decide, by decide,
    by decide, by decide, by decide, by decide, by decide, by decide, by decide⟩

/-- Whatever `call_gemini` returns as `some` passed the source's
`if data:` check, so it is truthy. -/
theorem call_gemini_truthy {p : String} {mt : Nat} {r : GenResult} {d : JSON}
    (h : call_gemini p mt r = some d) : truthy d = true := by
  cases r with
  | raise => simp [call_gemini] at h
  | ok t =>
    cases he : extract_json (t.getD "") with
    | none => simp [call_gemini, he] at h
    | some d0 =>
      simp only [call_gemini, he] at h
      by_cases ht : truthy d0
      · rw [if_pos ht] at h
        cases h
        exact ht
      · rw [if_neg ht] at h
        cases h

/-- C4 (counterexample): the wrapper is claimed to return whatever the
extractor yields; on response text `"{}"` extraction yields the empty
object but `call_gemini` returns absence (`if data:` is a truthiness
check). -/
theorem call_gemini_drops_falsy_extraction :
    call_gemini "p" 4096 (.ok (some "\x7b\x7d")) = none ∧
    extract_json "\x7b\x7d" = some (.obj []) :=
  ⟨rfl, rfl⟩

/-- C4 (amended): on a raised call the wrapper returns absence;
otherwise it returns the extracted value exactly when that value is
truthy, and absence both when extraction fails and when the extracted
value is falsy. -/
theorem call_gemini_amended (t : Option String) (d : JSON) :
    call_gemini "p" 4096 .raise = none ∧
    (extract_json (t.getD "") = some d → truthy d = true →
      ∀ prompt max_tokens, call_gemini prompt max_tokens (.ok t) = some d) ∧
    (extract_json (t.getD "") = none →
      ∀ prompt max_tokens, call_gemini prompt max_tokens (.ok t) = none) ∧
    (extract_json (t.getD "") = some d → truthy d = false →
      ∀ prompt max_tokens, call_gemini prompt max_tokens (.ok t) = none) := by
  refine ⟨rfl, ?_, ?_, ?_⟩
  · intro he ht prompt max_tokens
    simp [call_gemini, he, ht]
  · intro he prompt max_tokens
    simp [call_gemini, he]
  · intro he ht prompt max_tokens
    simp [call_gemini, he, ht]

/-- Closed instance of `call_gemini_amended`: a truthy extraction is
passed through. -/
theorem call_gemini_amended_witness :
    extract_json "\x7b\"a\": 1\x7d" = some (JSON.obj [("a", .num 1)]) ∧
    truthy (JSON.obj [("a", .num 1)]) = true ∧
    call_gemini "p" 7 (.ok (some "\x7b\"a\": 1\x7d")) =
      some (JSON.obj [("a", .num 1)]) :=
  ⟨rfl, rfl,
    (call_gemini_amended (some "\x7b\"a\": 1\x7d") (JSON.obj [("a", .num 1)])).2.1
      rfl rfl "p" 7⟩

/-- C6: with ten or more answered questions, `should_ask_more_questions`
returns a decision whose `action` is `"ready"` and whose `question` is
`None`, whatever the oracle invocation produced. -/
theorem should_ask_ready_at_cap (goal : String) (qa : List QAPair)
    (r : GenResult) (h : 10 ≤ qa.length) :
    dictGet (should_ask_more_questions goal qa r) "action" = .str "ready" ∧
    dictGet (should_ask_more_questions goal qa r) "question" = .null := by
  simp only [should_ask_more_questions]
  cases hc : call_gemini
      (continuePrompt goal qa.length 10 (qa_text_of qa)) 400 r with
  | none => exact ⟨rfl, rfl⟩
  | some d =>
    dsimp only
    by_cases h1 : truthy d
    · by_cases h2 : isDict d
      · rw [if_neg (by simp [h1]), if_neg (by simp [h2]), if_pos h]
        exact ⟨rfl, rfl⟩
      · rw [if_neg (by simp [h1]), if_pos (by simp [h2])]
        exact ⟨rfl, rfl⟩
    · rw [if_pos (by simp [h1])]
      exact ⟨rfl, rfl⟩

/-- Closed instance of `should_ask_ready_at_cap` at a ten-question
history with the oracle answering `{"action": "ask", "question": "X"}`. -/
theorem should_ask_ready_at_cap_witness :
    10 ≤ (List.replicate 10 (QAPair.mk "q" "a")).length ∧
    dictGet (should_ask_more_questions "Learn piano"
        (List.replicate 10 (QAPair.mk "q" "a"))
        (.ok (some "\x7b\"action\": \"ask\", \"question\": \"X\"\x7d")))
      "action" = .str "ready" ∧
    dictGet (should_ask_more_questions "Learn piano"
        (List.replicate 10 (QAPair.mk "q" "a"))
        (.ok (some "\x7b\"action\": \"ask\", \"question\": \"X\"\x7d")))
      "question" = .null :=
  ⟨by decide,
   (should_ask_ready_at_cap "Learn piano" (List.replicate 10 (QAPair.mk "q" "a"))
     (.ok (some "\x7b\"action\": \"ask\", \"question\": \"X\"\x7d")) (by decide)).1,
   (should_ask_ready_at_cap "Learn piano" (List.replicate 10 (QAPair.mk "q" "a"))
     (.ok (some "\x7b\"action\": \"ask\", \"question\": \"X\"\x7d")) (by decide)).2⟩

/-- C7: when the invocation wrapper yields absence, `generate_plan`
returns exactly the fixed fallback plan (one research step with the
three fixed resources, three fixed tips, the input goal), and this
fallback is not the sanitizer's output for an empty plan dict. -/
theorem generate_plan_fixed_fallback (goal : String) (qa : List QAPair)
    (r : GenResult)
    (h : call_gemini (planPrompt goal (qa_text_of qa)) 4096 r = none) :
    generate_plan goal qa r = .ok (.obj
      [("goal", .str goal),
       ("steps", .arr
         [.obj [("step_number", .num 1),
                ("do", .str ("Research and break down what's needed for: " ++ goal)),
                ("why", .str "Need to understand requirements before taking action"),
                ("check",
                 .str "You have a clear list of what needs to be built/learned/done"),
                ("resources", .arr
                  [.str "Google search", .str "YouTube tutorials",
                   .str "Relevant online communities"])]]),
       ("tips", .arr
         [.str "Start with small wins", .str "Track your progress",
          .str "Adjust approach based on what you learn"])]) ∧
    generate_plan "Learn Korean" [] .raise ≠
      _sanitize_plan_dict (.obj []) "Learn Korean" := by
  constructor
  · simp only [generate_plan]
    rw [h]
    rfl
  · intro hc
    have h1 : generate_plan "Learn Korean" [] .raise =
        .ok (planFallback "Learn Korean") := rfl
    rw [h1] at hc
    have h2 : _sanitize_plan_dict (.obj []) "Learn Korean" =
        .ok (.obj
          [("steps", .arr
            [.obj [("step_number", .num 1),
                   ("do", .str "Research and scope: Learn Korean"),
                   ("why", .str "Need to understand requirements before planning"),
                   ("check", .str "You have a clear breakdown of what's needed"),
                   ("resources", .arr
                     [.str "Google", .str "YouTube", .str "Online forums"])]]),
           ("tips", .arr
             [.str "Stay consistent", .str "Track progress",
              .str "Adjust as you learn"]),
           ("goal", .str "Learn Korean")]) := rfl
    rw [h2] at hc
    simp [planFallback] at hc

/-- Closed instance of `generate_plan_fixed_fallback` at a raised call. -/
theorem generate_plan_fixed_fallback_witness :
    call_gemini (planPrompt "Run a marathon" (qa_text_of [])) 4096 .raise = none ∧
    generate_plan "Run a marathon" [] .raise = .ok (.obj
      [("goal", .str "Run a marathon"),
       ("steps", .arr
         [.obj [("step_number", .num 1),
                ("do", .str ("Research and break down what's needed for: " ++
                  "Run a marathon")),
                ("why", .str "Need to understand requirements before taking action"),
                ("check",
                 .str "You have a clear list of what needs to be built/learned/done"),
                ("resources", .arr
                  [.str "Google search", .str "YouTube tutorials",
                   .str "Relevant online communities"])]]),
       ("tips", .arr
         [.str "Start with small wins", .str "Track your progress",
          .str "Adjust approach based on what you learn"])]) :=
  ⟨rfl, (generate_plan_fixed_fallback "Run a marathon" [] .raise rfl).1⟩

/-- C10: below the cap, a mapping produced by the model invocation is
returned verbatim by `should_ask_more_questions`, with no key or
`action` validation (the members `kvs` are arbitrary). -/
theorem should_ask_returns_mapping_verbatim (goal : String) (qa : List QAPair)
    (r : GenResult) (kvs : List (String × JSON))
    (hlen : qa.length < 10)
    (hres : call_gemini (continuePrompt goal qa.length 10 (qa_text_of qa)) 400 r =
      some (.obj kvs)) :
    should_ask_more_questions goal qa r = .obj kvs := by
  have htr : truthy (JSON.obj kvs) = true := call_gemini_truthy hres
  simp only [should_ask_more_questions]
  rw [hres]
  dsimp only
  rw [if_neg (by simp [htr]), if_neg (by simp [isDict]),
    if_neg (Nat.not_le.mpr hlen)]

-- ===========================================================================
-- Toward claim C5: the fence-stripping `re.sub` is the identity on
-- backtick-free text
-- ===========================================================================

/-- The head of a `dropWhile` result is a member of the original list. -/
theorem mem_of_dropWhile_cons {p : Char → Bool} {l t : List Char} {b : Char}
    (h : l.dropWhile p = b :: t) : b ∈ l :=
  (List.dropWhile_sublist _).subset (h ▸ List.mem_cons_self b t)

/-- Without backticks the leading-fence alternative cannot match. -/
theorem stripLeadFence_id {cs : List Char} (h : btickC ∉ cs) :
    stripLeadFence cs = cs := by
  rw [stripLeadFence]
  rcases hl : cs.dropWhile isPyWs with _ | ⟨b1, _ | ⟨b2, _ | ⟨b3, r2⟩⟩⟩
  · rfl
  · rfl
  · rfl
  · dsimp only
    rw [if_neg]
    rintro ⟨rfl, -, -⟩
    exact h (mem_of_dropWhile_cons hl)

/-- Without backticks no suffix matches the trailing-fence pattern. -/
theorem trailFenceAt_eq_false {cs : List Char} (h : btickC ∉ cs) :
    trailFenceAt cs = false := by
  rw [trailFenceAt]
  rcases hl : cs.dropWhile isPyWs with _ | ⟨b1, _ | ⟨b2, _ | ⟨b3, r2⟩⟩⟩
  · rfl
  · rfl
  · rfl
  · have hb : ¬b1 = btickC := fun he => h (he ▸ mem_of_dropWhile_cons hl)
    simp [hb]

/-- Without backticks the trailing-fence search finds nothing. -/
theorem trailGo_eq_none {cs : List Char} (h : btickC ∉ cs) :
    ∀ i, trailGo cs i = none := by
  induction cs with
  | nil => intro i; rfl
  | cons c t ih =>
    intro i
    rw [trailGo, if_neg]
    · exact ih (fun hm => h (List.mem_cons_of_mem c hm)) (i + 1)
    · simp [trailFenceAt_eq_false h]

/-- The fence-stripping `re.sub` is the identity on backtick-free text. -/
theorem stripFences_id {cs : List Char} (h : btickC ∉ cs) :
    stripFences cs = cs := by
  rw [stripFences, stripLeadFence_id h, stripTrailFence, trailGo_eq_none h 0]

-- ===========================================================================
-- Toward claim C5: fuel monotonicity of the parser
-- ===========================================================================

/-- A successful parse at some fuel succeeds identically at any larger
fuel (the fuel only bounds nesting). -/
theorem parse_mono : ∀ f f', f ≤ f' →
    (∀ cs r, parseVal f cs = some r → parseVal f' cs = some r) ∧
    (∀ cs acc r, parseMembers f cs acc = some r → parseMembers f' cs acc = some r) ∧
    (∀ cs acc r, parseElems f cs acc = some r → parseElems f' cs acc = some r) := by
  intro f
  induction f with
  | zero =>
    intro f' _
    refine ⟨?_, ?_, ?_⟩
    · intro cs r h; rw [parseVal] at h; exact absurd h (by simp)
    · intro cs acc r h; rw [parseMembers] at h; exact absurd h (by simp)
    · intro cs acc r h; rw [parseElems] at h; exact absurd h (by simp)
  | succ f ih =>
    intro f' hf
    obtain ⟨f2, rfl⟩ : ∃ f2, f' = f2 + 1 := ⟨f' - 1, by omega⟩
    have IH := ih f2 (by omega)
    refine ⟨?_, ?_, ?_⟩
    · intro cs r h
      cases cs with
      | nil => rw [parseVal] at h; exact absurd h (by simp)
      | cons c rest =>
        rw [parseVal] at h ⊢
        by_cases h1 : c = lbraceC
        · rw [if_pos h1] at h ⊢
          cases hs : skipJWs rest with
          | nil => rw [hs] at h; exact absurd h (by simp)
          | cons c2 r2 =>
            rw [hs] at h
            dsimp only at h ⊢
            by_cases h2 : c2 = rbraceC
            · rw [if_pos h2] at h ⊢; exact h
            · rw [if_neg h2] at h ⊢; exact IH.2.1 _ _ _ h
        · rw [if_neg h1] at h ⊢
          by_cases h2 : c = '['
          · rw [if_pos h2] at h ⊢
            cases hs : skipJWs rest with
            | nil => rw [hs] at h; exact absurd h (by simp)
            | cons c2 r2 =>
              rw [hs] at h
              dsimp only at h ⊢
              by_cases h3 : c2 = ']'
              · rw [if_pos h3] at h ⊢; exact h
              · rw [if_neg h3] at h ⊢; exact IH.2.2 _ _ _ h
          · rw [if_neg h2] at h ⊢
            exact h
    · intro cs acc r h
      cases cs with
      | nil => rw [parseMembers] at h; exact absurd h (by simp)
      | cons c rest =>
        rw [parseMembers] at h ⊢
        by_cases h1 : c = quoteC
        · rw [if_pos h1] at h ⊢
          cases hk : parseStrGo [] rest with
          | none => rw [hk] at h; exact absurd h (by simp)
          | some kr =>
            obtain ⟨k, r1⟩ := kr
            rw [hk] at h
            dsimp only at h ⊢
            cases hs : skipJWs r1 with
            | nil => rw [hs] at h; exact absurd h (by simp)
            | cons d r2 =>
              rw [hs] at h
              dsimp only at h ⊢
              by_cases hd : d = ':'
              · rw [if_pos hd] at h ⊢
                cases hv : parseVal f (skipJWs r2) with
                | none => rw [hv] at h; exact absurd h (by simp)
                | some vr =>
                  obtain ⟨v, r3⟩ := vr
                  rw [hv] at h
                  rw [IH.1 _ _ hv]
                  dsimp only at h ⊢
                  cases hs2 : skipJWs r3 with
                  | nil => rw [hs2] at h; exact absurd h (by simp)
                  | cons d2 r4 =>
                    rw [hs2] at h
                    dsimp only at h ⊢
                    by_cases hd2 : d2 = ','
                    · rw [if_pos hd2] at h ⊢
                      exact IH.2.1 _ _ _ h
                    · rw [if_neg hd2] at h ⊢
                      exact h
              · rw [if_neg hd] at h; exact absurd h (by simp)
        · rw [if_neg h1] at h; exact absurd h (by simp)
    · intro cs acc r h
      rw [parseElems] at h ⊢
      cases hv : parseVal f cs with
      | none => rw [hv] at h; exact absurd h (by simp)
      | some vr =>
        obtain ⟨v, r1⟩ := vr
        rw [hv] at h
        rw [IH.1 _ _ hv]
        dsimp only at h ⊢
        cases hs : skipJWs r1 with
        | nil => rw [hs] at h; exact absurd h (by simp)
        | cons d r2 =>
          rw [hs] at h
          dsimp only at h ⊢
          by_cases hd : d = ','
          · rw [if_pos hd] at h ⊢
            exact IH.2.2 _ _ _ h
          · rw [if_neg hd] at h ⊢
            exact h

/-- Closed instance of `should_ask_returns_mapping_verbatim`: an empty
history and an oracle mapping without any of the expected keys. -/
theorem should_ask_returns_mapping_verbatim_witness :
    ([] : List QAPair).length < 10 ∧
    call_gemini (continuePrompt "Learn chess" ([] : List QAPair).length 10
        (qa_text_of [])) 400 (.ok (some "\x7b\"foo\": \"bar\"\x7d")) =
      some (.obj [("foo", .str "bar")]) ∧
    should_ask_more_questions "Learn chess" []
        (.ok (some "\x7b\"foo\": \"bar\"\x7d")) = .obj [("foo", .str "bar")] :=
  ⟨by decide, rfl,
   should_ask_returns_mapping_verbatim "Learn chess" []
     (.ok (some "\x7b\"foo\": \"bar\"\x7d")) [("foo", .str "bar")]
     (by decide) rfl⟩

-- ===========================================================================
-- Toward claim C5: number tokens are stable in front of a safe boundary
-- ===========================================================================

/-- A safe boundary character is not a number character. -/
theorem safeBoundary_not_numChar {b : Char} (h : safeBoundary b = true) :
    numChar b = false := by
  simp only [safeBoundary, isJWs, Bool.or_eq_true, decide_eq_true_eq] at h
  rcases h with ((((((rfl | rfl) | rfl) | rfl) | rfl) | rfl) | rfl) <;> decide

/-- Components of `numChar b = false`. -/
theorem not_numChar_facts {b : Char} (h : numChar b = false) :
    b.isDigit = false ∧ b ≠ '.' ∧ ¬(b = 'e' ∨ b = 'E') ∧ b ≠ '-' ∧ b ≠ '+' := by
  simp only [numChar, Bool.or_eq_false_iff, decide_eq_false_iff_not] at h
  obtain ⟨⟨⟨⟨⟨h1, h2⟩, h3⟩, h4⟩, h5⟩, h6⟩ := h
  exact ⟨h1, h4, fun hc => hc.elim h5 h6, h2, h3⟩

/-- `takeWhile`/`dropWhile` over an append when the scan stops inside
the first part. -/
theorem dropTake_append_ne {p : Char → Bool} :
    ∀ {l : List Char}, l.dropWhile p ≠ [] → ∀ ex : List Char,
      (l ++ ex).takeWhile p = l.takeWhile p ∧
      (l ++ ex).dropWhile p = l.dropWhile p ++ ex := by
  intro l
  induction l with
  | nil => intro h; exact absurd rfl h
  | cons c t ih =>
    intro h ex
    by_cases hp : p c
    · rw [List.dropWhile_cons_of_pos hp] at h
      obtain ⟨ht, hd⟩ := ih h ex
      constructor
      · rw [List.cons_append, List.takeWhile_cons_of_pos hp,
          List.takeWhile_cons_of_pos hp, ht]
      · rw [List.cons_append, List.dropWhile_cons_of_pos hp,
          List.dropWhile_cons_of_pos hp, hd]
    · constructor
      · rw [List.cons_append, List.takeWhile_cons_of_neg hp,
          List.takeWhile_cons_of_neg hp]
      · rw [List.cons_append, List.dropWhile_cons_of_neg hp,
          List.dropWhile_cons_of_neg hp, List.cons_append]

/-- If the fraction digits came out empty, nothing was consumed. -/
theorem fracPart_nil_snd {cs fp cs2 : List Char}
    (h : fracPart cs = (fp, cs2)) (hfp : fp = []) : cs2 = cs := by
  subst hfp
  cases cs with
  | nil => cases h; rfl
  | cons c r2 =>
    rw [fracPart] at h
    by_cases hc : c = '.'
    · rw [if_pos hc] at h
      dsimp only at h
      by_cases he : (r2.takeWhile Char.isDigit).isEmpty
      · rw [if_pos he] at h; cases h; rfl
      · rw [if_neg he] at h
        injection h with h1 h2
        rw [h1] at he
        exact absurd rfl he
    · rw [if_neg hc] at h; cases h; rfl

/-- A head that is not a dot leaves `fracPart` untouched. -/
theorem fracPart_not_dot {cs : List Char} {b : Char}
    (hh : cs.head? = some b) (hb : b ≠ '.') : fracPart cs = ([], cs) := by
  cases cs with
  | nil => cases hh
  | cons c r2 =>
    simp only [List.head?_cons, Option.some.injEq] at hh
    rw [fracPart, if_neg (hh ▸ hb)]

/-- A nonempty fraction pins down the shape of the input. -/
theorem fracPart_shape {cs fp cs2 : List Char}
    (h : fracPart cs = (fp, cs2)) (hfp : fp ≠ []) :
    ∃ r2, cs = '.' :: r2 ∧ fp = r2.takeWhile Char.isDigit ∧
      cs2 = r2.dropWhile Char.isDigit := by
  cases cs with
  | nil => cases h; exact absurd rfl hfp
  | cons c r2 =>
    rw [fracPart] at h
    by_cases hc : c = '.'
    · rw [if_pos hc] at h
      dsimp only at h
      by_cases he : (r2.takeWhile Char.isDigit).isEmpty
      · rw [if_pos he] at h; cases h; exact absurd rfl hfp
      · rw [if_neg he] at h
        injection h with h1 h2
        exact ⟨r2, by rw [hc], h1.symm, h2.symm⟩
    · rw [if_neg hc] at h; cases h; exact absurd rfl hfp

/-- When no exponent was taken, nothing was consumed and the value is 0. -/
theorem expPart_not_taken {cs cs3 : List Char} {ev : Int}
    (h : expPart cs = (ev, false, cs3)) : cs3 = cs ∧ ev = 0 := by
  cases cs with
  | nil => cases h; exact ⟨rfl, rfl⟩
  | cons e r3 =>
    rw [expPart.eq_def] at h
    dsimp only at h
    by_cases he : e = 'e' ∨ e = 'E'
    · rw [if_pos he] at h
      cases r3 with
      | nil => cases h; exact ⟨rfl, rfl⟩
      | cons s r4 =>
        dsimp only at h
        by_cases hs : s = '+' ∨ s = '-'
        · rw [if_pos hs] at h
          by_cases hd : (r4.takeWhile Char.isDigit).isEmpty
          · rw [if_pos hd] at h; cases h; exact ⟨rfl, rfl⟩
          · rw [if_neg hd] at h; cases h
        · rw [if_neg hs] at h
          by_cases hd : ((s :: r4).takeWhile Char.isDigit).isEmpty
          · rw [if_pos hd] at h; cases h; exact ⟨rfl, rfl⟩
          · rw [if_neg hd] at h; cases h
    · rw [if_neg he] at h; cases h; exact ⟨rfl, rfl⟩

/-- A head that is not an exponent marker leaves `expPart` untouched. -/
theorem expPart_not_exp {cs : List Char} {b : Char}
    (hh : cs.head? = some b) (hb : ¬(b = 'e' ∨ b = 'E')) :
    expPart cs = (0, false, cs) := by
  cases cs with
  | nil => cases hh
  | cons c r3 =>
    simp only [List.head?_cons, Option.some.injEq] at hh
    rw [expPart.eq_def]
    dsimp only
    rw [if_neg (hh ▸ hb)]

/-- A taken exponent starts with its marker. -/
theorem expPart_taken_head {cs cs3 : List Char} {ev : Int}
    (h : expPart cs = (ev, true, cs3)) :
    ∃ e r3, cs = e :: r3 ∧ (e = 'e' ∨ e = 'E') := by
  cases cs with
  | nil => cases h
  | cons e r3 =>
    rw [expPart.eq_def] at h
    dsimp only at h
    by_cases he : e = 'e' ∨ e = 'E'
    · exact ⟨e, r3, rfl, he⟩
    · rw [if_neg he] at h; cases h

/-- A taken exponent whose rest stops in front of a non-digit is stable
under appending. -/
theorem expPart_ext_taken {cs cs3 : List Char} {ev : Int} {b : Char}
    (h : expPart cs = (ev, true, cs3)) (hh : cs3.head? = some b)
    (hd : b.isDigit = false) (ex : List Char) :
    expPart (cs ++ ex) = (ev, true, cs3 ++ ex) := by
  cases cs with
  | nil => cases h
  | cons e r3 =>
    rw [expPart.eq_def] at h
    dsimp only at h
    rw [List.cons_append, expPart.eq_def]
    dsimp only
    by_cases he : e = 'e' ∨ e = 'E'
    · rw [if_pos he] at h ⊢
      cases r3 with
      | nil => cases h
      | cons s r4 =>
        dsimp only at h
        rw [List.cons_append]
        dsimp only
        by_cases hs : s = '+' ∨ s = '-'
        · rw [if_pos hs] at h ⊢
          by_cases hde : (r4.takeWhile Char.isDigit).isEmpty
          · rw [if_pos hde] at h; cases h
          · rw [if_neg hde] at h
            cases h
            have hne : r4.dropWhile Char.isDigit ≠ [] := by
              intro hnil
              rw [hnil] at hh
              cases hh
            obtain ⟨ht, hdr⟩ := dropTake_append_ne hne ex
            rw [ht, if_neg hde, hdr]
        · rw [if_neg hs] at h ⊢
          by_cases hde : ((s :: r4).takeWhile Char.isDigit).isEmpty
          · rw [if_pos hde] at h; cases h
          · rw [if_neg hde] at h
            cases h
            have hne : (s :: r4).dropWhile Char.isDigit ≠ [] := by
              intro hnil
              rw [hnil] at hh
              cases hh
            obtain ⟨ht, hdr⟩ := dropTake_append_ne hne ex
            rw [← List.cons_append, ht, if_neg hde, hdr]
    · rw [if_neg he] at h; cases h

/-- `afterIntPart` is stable under appending text when its rest stops
in front of a safe boundary character. -/
theorem afterIntPart_ext {neg : Bool} {ip : Nat} {cs : List Char} {v : JSON}
    {rest : List Char} {b : Char} (ex : List Char)
    (h : afterIntPart neg ip cs = some (v, rest))
    (hb : rest.head? = some b) (hsb : safeBoundary b = true) :
    afterIntPart neg ip (cs ++ ex) = some (v, rest ++ ex) := by
  obtain ⟨hdig, hdot, hexpc, -, -⟩ := not_numChar_facts (safeBoundary_not_numChar hsb)
  rw [afterIntPart] at h
  rw [afterIntPart]
  rcases hf : fracPart cs with ⟨fp, cs2⟩
  rw [hf] at h
  dsimp only at h
  rcases hq : expPart cs2 with ⟨ev, hexp, cs3⟩
  rw [hq] at h
  try dsimp only at h
  have hrest : rest = cs3 := by
    by_cases hcond : (fp.isEmpty = true ∧ ¬hexp = true)
    · rw [if_pos hcond] at h; cases h; rfl
    · rw [if_neg hcond] at h
      try dsimp only at h
      by_cases hk : ((fp.length : Int) - ev) ≤ 0
      · rw [if_pos hk] at h; cases h; rfl
      · rw [if_neg hk] at h; cases h; rfl
  have hbcs3 : cs3.head? = some b := hrest ▸ hb
  have hcs3ne : cs3 ≠ [] := by
    intro hn
    rw [hn] at hbcs3
    cases hbcs3
  have hexpx : expPart (cs2 ++ ex) = (ev, hexp, cs3 ++ ex) := by
    cases hexp with
    | false =>
      obtain ⟨h1, h2⟩ := expPart_not_taken hq
      subst h2
      cases hx : cs3 with
      | nil => exact absurd hx hcs3ne
      | cons x xs =>
        rw [hx] at hbcs3
        simp only [List.head?_cons, Option.some.injEq] at hbcs3
        rw [← h1, hx, List.cons_append]
        rw [expPart_not_exp (by simp) (hbcs3 ▸ hexpc)]
    | true => exact expPart_ext_taken hq hbcs3 hdig ex
  have hfracx : fracPart (cs ++ ex) = (fp, cs2 ++ ex) := by
    by_cases hfpe : fp = []
    · subst hfpe
      have hcs2 : cs2 = cs := fracPart_nil_snd hf rfl
      subst hcs2
      have hcsne : cs2 ≠ [] := by
        intro hn
        rw [hn] at hq
        rw [show expPart ([] : List Char) = ((0 : Int), false, ([] : List Char))
          from rfl] at hq
        cases hq
        exact hcs3ne rfl
      obtain ⟨c0, t0, rfl⟩ : ∃ c0 t0, cs2 = c0 :: t0 := by
        cases cs2 with
        | nil => exact absurd rfl hcsne
        | cons a t => exact ⟨a, t, rfl⟩
      have hc0 : c0 ≠ '.' := by
        cases hexp with
        | false =>
          obtain ⟨h1, -⟩ := expPart_not_taken hq
          rw [h1] at hbcs3
          simp only [List.head?_cons, Option.some.injEq] at hbcs3
          rw [hbcs3]
          exact hdot
        | true =>
          obtain ⟨e, r3, hsh, he⟩ := expPart_taken_head hq
          injection hsh with he1 he2
          rcases he with rfl | rfl <;> (rw [he1]; decide)
      rw [List.cons_append]
      exact fracPart_not_dot (by simp) hc0
    · obtain ⟨r2, rfl, hfp, hcs2⟩ := fracPart_shape hf hfpe
      have hcs2ne : cs2 ≠ [] := by
        cases hexp with
        | false =>
          obtain ⟨h1, -⟩ := expPart_not_taken hq
          rw [← h1]
          exact hcs3ne
        | true =>
          obtain ⟨e, r3, hsh, -⟩ := expPart_taken_head hq
          rw [hsh]
          simp
      have hdw : r2.dropWhile Char.isDigit ≠ [] := by
        rw [← hcs2]
        exact hcs2ne
      obtain ⟨ht, hdr⟩ := dropTake_append_ne hdw ex
      rw [List.cons_append, fracPart, if_pos rfl]
      dsimp only
      rw [ht, hdr,
        if_neg (fun hc => hfpe (hfp.trans (List.isEmpty_iff.mp hc))), ← hfp,
        ← hcs2]
  rw [hfracx]
  try dsimp only
  rw [hexpx]
  try dsimp only
  subst hrest
  by_cases hcond : (fp.isEmpty = true ∧ ¬hexp = true)
  · rw [if_pos hcond] at h ⊢
    cases h
    rfl
  · rw [if_neg hcond] at h ⊢
    try dsimp only at h ⊢
    by_cases hk : ((fp.length : Int) - ev) ≤ 0
    · rw [if_pos hk] at h ⊢
      cases h
      rfl
    · rw [if_neg hk] at h ⊢
      cases h
      rfl

/-- `afterIntPart` on an empty stream leaves an empty rest. -/
theorem afterIntPart_nil_rest {neg : Bool} {ip : Nat} {v : JSON}
    {rest : List Char} (h : afterIntPart neg ip [] = some (v, rest)) :
    rest = [] := by
  rw [show afterIntPart neg ip [] = some (.num (sgnInt neg ip), []) from rfl] at h
  cases h
  rfl

/-- A number token is stable under appending text when its rest stops
in front of a safe boundary character. -/
theorem parseNum_ext {cs : List Char} {v : JSON} {rest : List Char} {b : Char}
    (ex : List Char) (h : parseNum cs = some (v, rest))
    (hb : rest.head? = some b) (hsb : safeBoundary b = true) :
    parseNum (cs ++ ex) = some (v, rest ++ ex) := by
  rw [parseNum.eq_def] at h
  rw [parseNum.eq_def]
  cases cs with
  | nil => simp at h
  | cons c r =>
    rw [List.cons_append]
    dsimp only at h ⊢
    by_cases hc : c = '-'
    · rw [if_pos hc] at h ⊢
      try dsimp only at h ⊢
      cases r with
      | nil => simp at h
      | cons c1 r1 =>
        rw [List.cons_append]
        try dsimp only at h ⊢
        by_cases h0 : c1 = '0'
        · rw [if_pos h0] at h ⊢
          exact afterIntPart_ext ex h hb hsb
        · rw [if_neg h0] at h ⊢
          by_cases hd : c1.isDigit
          · rw [if_pos hd] at h ⊢
            have hrne : r1.dropWhile Char.isDigit ≠ [] := by
              intro hn
              rw [hn] at h
              rw [afterIntPart_nil_rest h] at hb
              cases hb
            obtain ⟨ht, hdr⟩ := dropTake_append_ne hrne ex
            rw [ht, hdr]
            exact afterIntPart_ext ex h hb hsb
          · rw [if_neg hd] at h
            simp at h
    · rw [if_neg hc] at h ⊢
      try dsimp only at h ⊢
      by_cases h0 : c = '0'
      · rw [if_pos h0] at h ⊢
        exact afterIntPart_ext ex h hb hsb
      · rw [if_neg h0] at h ⊢
        by_cases hd : c.isDigit
        · rw [if_pos hd] at h ⊢
          have hrne : r.dropWhile Char.isDigit ≠ [] := by
            intro hn
            rw [hn] at h
            rw [afterIntPart_nil_rest h] at hb
            cases hb
          obtain ⟨ht, hdr⟩ := dropTake_append_ne hrne ex
          rw [ht, hdr]
          exact afterIntPart_ext ex h hb hsb
        · rw [if_neg hd] at h
          simp at h

/-- A successful number parse starts with a minus sign or a digit. -/
theorem parseNum_head {cs : List Char} {r : JSON × List Char}
    (h : parseNum cs = some r) :
    ∃ c t, cs = c :: t ∧ (c = '-' ∨ c.isDigit = true) := by
  rw [parseNum.eq_def] at h
  cases cs with
  | nil => simp at h
  | cons c t =>
    dsimp only at h
    by_cases hc : c = '-'
    · exact ⟨c, t, rfl, Or.inl hc⟩
    · rw [if_neg hc] at h
      try dsimp only at h
      by_cases h0 : c = '0'
      · exact ⟨c, t, rfl, Or.inr (by rw [h0]; decide)⟩
      · rw [if_neg h0] at h
        by_cases hd : c.isDigit
        · exact ⟨c, t, rfl, Or.inr hd⟩
        · rw [if_neg hd] at h
          simp at h

/-- A parsed string body is stable under appending text (it always ends
at its closing quote). -/
theorem parseStrGo_ext : ∀ (n : Nat) (cs : List Char), cs.length ≤ n →
    ∀ {acc : List Char} {s : String} {rest ex : List Char},
      parseStrGo acc cs = some (s, rest) →
      parseStrGo acc (cs ++ ex) = some (s, rest ++ ex) := by
  intro n
  induction n with
  | zero =>
    intro cs hlen acc s rest ex h
    have : cs = [] := List.length_eq_zero.mp (Nat.le_zero.mp hlen)
    subst this
    simp [parseStrGo] at h
  | succ n ihn =>
    intro cs hlen acc s rest ex h
    cases cs with
    | nil => simp [parseStrGo] at h
    | cons c cr =>
      rw [parseStrGo.eq_def] at h
      rw [List.cons_append, parseStrGo.eq_def]
      dsimp only at h ⊢
      by_cases h1 : c = quoteC
      · rw [if_pos h1] at h ⊢
        simp only [Option.some.injEq, Prod.mk.injEq] at h
        obtain ⟨h2, h3⟩ := h
        rw [h2, h3]
      · rw [if_neg h1] at h ⊢
        by_cases h2 : c = '\\'
        · rw [if_pos h2] at h ⊢
          cases cr with
          | nil => simp at h
          | cons e r2 =>
            rw [List.cons_append]
            dsimp only at h ⊢
            by_cases h3 : e = 'u'
            · rw [if_pos h3] at h ⊢
              rcases r2 with _ | ⟨x1, _ | ⟨x2, _ | ⟨x3, _ | ⟨x4, r3⟩⟩⟩⟩
              · simp at h
              · simp at h
              · simp at h
              · simp at h
              · rw [List.cons_append, List.cons_append, List.cons_append,
                  List.cons_append]
                dsimp only at h ⊢
                cases hx1 : hexVal x1 with
                | none => rw [hx1] at h; simp at h
                | some a =>
                  cases hx2 : hexVal x2 with
                  | none => rw [hx1, hx2] at h; simp at h
                  | some bb =>
                    cases hx3 : hexVal x3 with
                    | none => rw [hx1, hx2, hx3] at h; simp at h
                    | some cc =>
                      cases hx4 : hexVal x4 with
                      | none => rw [hx1, hx2, hx3, hx4] at h; simp at h
                      | some dd =>
                        rw [hx1, hx2, hx3, hx4] at h
                        dsimp only at h ⊢
                        refine ihn r3 ?_ h
                        simp only [List.length_cons] at hlen
                        omega
            · rw [if_neg h3] at h ⊢
              cases he : escChar e with
              | none => rw [he] at h; simp at h
              | some ce =>
                rw [he] at h
                dsimp only at h ⊢
                refine ihn r2 ?_ h
                simp only [List.length_cons] at hlen
                omega
        · rw [if_neg h2] at h ⊢
          by_cases h4 : c.toNat < 32
          · rw [if_pos h4] at h
            simp at h
          · rw [if_neg h4] at h ⊢
            refine ihn cr ?_ h
            simp only [List.length_cons] at hlen
            omega

/-- A literal or number token is stable under appending text when its
rest stops in front of a safe boundary character. -/
theorem parseLitOrNum_ext {cs : List Char} {v : JSON} {rest : List Char}
    {b : Char} (ex : List Char) (h : parseLitOrNum cs = some (v, rest))
    (hb : rest.head? = some b) (hsb : safeBoundary b = true) :
    parseLitOrNum (cs ++ ex) = some (v, rest ++ ex) := by
  rw [parseLitOrNum.eq_def] at h
  split at h
  · cases h
    rfl
  · cases h
    rfl
  · cases h
    rfl
  · obtain ⟨c, t, rfl, hcd⟩ := parseNum_head h
    have hct : ¬(c = 't' ∨ c = 'f' ∨ c = 'n') := by
      rcases hcd with rfl | hd
      · decide
      · rintro (rfl | rfl | rfl) <;> simp at hd
    rw [List.cons_append, parseLitOrNum.eq_def]
    split
    · rename_i r heq
      injection heq with he1 _
      exact absurd (Or.inl he1) hct
    · rename_i r heq
      injection heq with he1 _
      exact absurd (Or.inr (Or.inl he1)) hct
    · rename_i r heq
      injection heq with he1 _
      exact absurd (Or.inr (Or.inr he1)) hct
    · rw [← List.cons_append]
      exact parseNum_ext ex h hb hsb

/-- Skipping whitespace that stops at a character is stable under
appending. -/
theorem skipJWs_ext {l : List Char} {d : Char} {r : List Char}
    (h : skipJWs l = d :: r) (ex : List Char) :
    skipJWs (l ++ ex) = d :: (r ++ ex) := by
  have hne : l.dropWhile isJWs ≠ [] := by
    intro hn
    rw [skipJWs, hn] at h
    cases h
  have h2 := (dropTake_append_ne hne ex).2
  rw [skipJWs] at h ⊢
  rw [h2, h]
  rfl

/-- The character in front of a whitespace skip that lands on a safe
boundary is itself a safe boundary (whitespace or that character). -/
theorem boundary_of_skip {l : List Char} {d : Char} {r : List Char}
    (h : skipJWs l = d :: r) (hd : safeBoundary d = true) :
    ∃ b, l.head? = some b ∧ safeBoundary b = true := by
  cases l with
  | nil => rw [skipJWs] at h; cases h
  | cons c t =>
    by_cases hw : isJWs c
    · exact ⟨c, rfl, by simp [safeBoundary, hw]⟩
    · rw [skipJWs, List.dropWhile_cons_of_neg hw] at h
      injection h with h1 _
      exact ⟨c, rfl, h1 ▸ hd⟩

/-- `parseVal` on an empty stream fails. -/
theorem parseVal_nil (f : Nat) : parseVal f [] = none := by
  cases f <;> rfl

/-- `parseMembers` on an empty stream fails. -/
theorem parseMembers_nil (f : Nat) (acc : List (String × JSON)) :
    parseMembers f [] acc = none := by
  cases f <;> rfl

/-- `parseElems` on an empty stream fails. -/
theorem parseElems_nil (f : Nat) (acc : List JSON) :
    parseElems f [] acc = none := by
  cases f with
  | zero => rfl
  | succ f => rw [parseElems, parseVal_nil]

/-- The parser only reads its input up to the rest it returns: appending
more text does not change a successful parse, provided the parse either
stopped in front of a safe boundary character or consumed a closed
form (object, array or string), which terminates on its own closing
delimiter. -/
theorem parse_ext : ∀ f,
    (∀ cs v rest ex, parseVal f cs = some (v, rest) →
      ((∃ b, rest.head? = some b ∧ safeBoundary b = true) ∨
       (∃ c, cs.head? = some c ∧ (c = lbraceC ∨ c = '[' ∨ c = quoteC))) →
      parseVal f (cs ++ ex) = some (v, rest ++ ex)) ∧
    (∀ cs acc v rest ex, parseMembers f cs acc = some (v, rest) →
      parseMembers f (cs ++ ex) acc = some (v, rest ++ ex)) ∧
    (∀ cs acc v rest ex, parseElems f cs acc = some (v, rest) →
      parseElems f (cs ++ ex) acc = some (v, rest ++ ex)) := by
  intro f
  induction f with
  | zero =>
    refine ⟨?_, ?_, ?_⟩
    · intro cs v rest ex h; rw [parseVal] at h; exact absurd h (by simp)
    · intro cs acc v rest ex h; rw [parseMembers] at h; exact absurd h (by simp)
    · intro cs acc v rest ex h; rw [parseElems] at h; exact absurd h (by simp)
  | succ f ih =>
    refine ⟨?_, ?_, ?_⟩
    · intro cs v rest ex hb
      intro HB
      cases cs with
      | nil => rw [parseVal] at hb; exact absurd hb (by simp)
      | cons c rest0 =>
        rw [parseVal] at hb
        rw [List.cons_append, parseVal]
        by_cases h1 : c = lbraceC
        · rw [if_pos h1] at hb ⊢
          cases hs : skipJWs rest0 with
          | nil => rw [hs] at hb; exact absurd hb (by simp)
          | cons c2 r2 =>
            rw [hs] at hb
            rw [skipJWs_ext hs ex]
            dsimp only at hb ⊢
            by_cases h2 : c2 = rbraceC
            · rw [if_pos h2] at hb ⊢
              cases hb
              rfl
            · rw [if_neg h2] at hb ⊢
              rw [← List.cons_append]
              exact ih.2.1 _ _ _ _ _ hb
        · rw [if_neg h1] at hb ⊢
          by_cases h2 : c = '['
          · rw [if_pos h2] at hb ⊢
            cases hs : skipJWs rest0 with
            | nil => rw [hs] at hb; exact absurd hb (by simp)
            | cons c2 r2 =>
              rw [hs] at hb
              rw [skipJWs_ext hs ex]
              dsimp only at hb ⊢
              by_cases h3 : c2 = ']'
              · rw [if_pos h3] at hb ⊢
                cases hb
                rfl
              · rw [if_neg h3] at hb ⊢
                rw [← List.cons_append]
                exact ih.2.2 _ _ _ _ _ hb
          · rw [if_neg h2] at hb ⊢
            by_cases h3 : c = quoteC
            · rw [if_pos h3] at hb ⊢
              cases hsg : parseStrGo [] rest0 with
              | none => rw [hsg] at hb; exact absurd hb (by simp)
              | some sr =>
                obtain ⟨s1, r1⟩ := sr
                rw [hsg] at hb
                rw [parseStrGo_ext rest0.length rest0 le_rfl hsg]
                dsimp only at hb ⊢
                cases hb
                rfl
            · rw [if_neg h3] at hb ⊢
              rcases HB with ⟨b, hbh, hsb⟩ | ⟨c', hc', hdisj⟩
              · rw [← List.cons_append]
                exact parseLitOrNum_ext ex hb hbh hsb
              · simp only [List.head?_cons, Option.some.injEq] at hc'
                subst hc'
                rcases hdisj with rfl | rfl | rfl
                · exact absurd rfl h1
                · exact absurd rfl h2
                · exact absurd rfl h3
    · intro cs acc v rest ex hb
      cases cs with
      | nil => rw [parseMembers] at hb; exact absurd hb (by simp)
      | cons c rest0 =>
        rw [parseMembers] at hb
        rw [List.cons_append, parseMembers]
        by_cases h1 : c = quoteC
        · rw [if_pos h1] at hb ⊢
          cases hsg : parseStrGo [] rest0 with
          | none => rw [hsg] at hb; exact absurd hb (by simp)
          | some kr =>
            obtain ⟨k, r1⟩ := kr
            rw [hsg] at hb
            rw [parseStrGo_ext rest0.length rest0 le_rfl hsg]
            dsimp only at hb ⊢
            cases hs : skipJWs r1 with
            | nil => rw [hs] at hb; exact absurd hb (by simp)
            | cons d r2 =>
              rw [hs] at hb
              rw [skipJWs_ext hs ex]
              dsimp only at hb ⊢
              by_cases hd : d = ':'
              · rw [if_pos hd] at hb ⊢
                cases hv : parseVal f (skipJWs r2) with
                | none => rw [hv] at hb; exact absurd hb (by simp)
                | some vr =>
                  obtain ⟨v1, r3⟩ := vr
                  rw [hv] at hb
                  have hner2 : skipJWs r2 ≠ [] := by
                    intro hn
                    rw [hn, parseVal_nil] at hv
                    cases hv
                  have hskip2 : skipJWs (r2 ++ ex) = skipJWs r2 ++ ex := by
                    rw [skipJWs] at hner2 ⊢
                    exact (dropTake_append_ne hner2 ex).2
                  dsimp only at hb
                  cases hs2 : skipJWs r3 with
                  | nil => rw [hs2] at hb; exact absurd hb (by simp)
                  | cons d2 r4 =>
                    rw [hs2] at hb
                    dsimp only at hb
                    by_cases hd2 : d2 = ','
                    · rw [if_pos hd2] at hb
                      obtain ⟨bb, hbb, hsbb⟩ :=
                        boundary_of_skip hs2 (by rw [hd2]; decide)
                      rw [hskip2, ih.1 _ _ _ _ hv (Or.inl ⟨bb, hbb, hsbb⟩)]
                      dsimp only
                      rw [skipJWs_ext hs2 ex]
                      dsimp only
                      rw [if_pos hd2]
                      have hner4 : skipJWs r4 ≠ [] := by
                        intro hn
                        rw [hn, parseMembers_nil] at hb
                        cases hb
                      have hskip4 : skipJWs (r4 ++ ex) = skipJWs r4 ++ ex := by
                        rw [skipJWs] at hner4 ⊢
                        exact (dropTake_append_ne hner4 ex).2
                      rw [hskip4]
                      exact ih.2.1 _ _ _ _ _ hb
                    · rw [if_neg hd2] at hb
                      by_cases hd2b : d2 = rbraceC
                      · rw [if_pos hd2b] at hb
                        cases hb
                        obtain ⟨bb, hbb, hsbb⟩ :=
                          boundary_of_skip hs2 (by rw [hd2b]; decide)
                        rw [hskip2, ih.1 _ _ _ _ hv (Or.inl ⟨bb, hbb, hsbb⟩)]
                        dsimp only
                        rw [skipJWs_ext hs2 ex]
                        dsimp only
                        rw [if_neg hd2, if_pos hd2b]
                      · rw [if_neg hd2b] at hb
                        exact absurd hb (by simp)
              · rw [if_neg hd] at hb
                exact absurd hb (by simp)
        · rw [if_neg h1] at hb
          exact absurd hb (by simp)
    · intro cs acc v rest ex hb
      rw [parseElems] at hb
      rw [parseElems]
      cases hv : parseVal f cs with
      | none => rw [hv] at hb; exact absurd hb (by simp)
      | some vr =>
        obtain ⟨v1, r1⟩ := vr
        rw [hv] at hb
        dsimp only at hb
        cases hs : skipJWs r1 with
        | nil => rw [hs] at hb; exact absurd hb (by simp)
        | cons d r2 =>
          rw [hs] at hb
          dsimp only at hb
          by_cases hd : d = ','
          · rw [if_pos hd] at hb
            obtain ⟨bb, hbb, hsbb⟩ := boundary_of_skip hs (by rw [hd]; decide)
            rw [ih.1 _ _ _ _ hv (Or.inl ⟨bb, hbb, hsbb⟩)]
            dsimp only
            rw [skipJWs_ext hs ex]
            dsimp only
            rw [if_pos hd]
            have hner2 : skipJWs r2 ≠ [] := by
              intro hn
              rw [hn, parseElems_nil] at hb
              cases hb
            have hskip2 : skipJWs (r2 ++ ex) = skipJWs r2 ++ ex := by
              rw [skipJWs] at hner2 ⊢
              exact (dropTake_append_ne hner2 ex).2
            rw [hskip2]
            exact ih.2.2 _ _ _ _ _ hb
          · rw [if_neg hd] at hb
            by_cases hd2 : d = ']'
            · rw [if_pos hd2] at hb
              cases hb
              obtain ⟨bb, hbb, hsbb⟩ := boundary_of_skip hs (by rw [hd2]; decide)
              rw [ih.1 _ _ _ _ hv (Or.inl ⟨bb, hbb, hsbb⟩)]
              dsimp only
              rw [skipJWs_ext hs ex]
              dsimp only
              rw [if_neg hd, if_pos hd2]
            · rw [if_neg hd2] at hb
              exact absurd hb (by simp)

/-- No left brace hides in a digit run. -/
theorem not_mem_takeWhile_digit (l : List Char) :
    lbraceC ∉ l.takeWhile Char.isDigit := by
  intro hm
  have := List.mem_takeWhile_imp hm
  exact absurd this (by decide)

/-- The characters `fracPart` consumes contain no left brace. -/
theorem fracPart_split {cs fp cs2 : List Char} (h : fracPart cs = (fp, cs2)) :
    ∃ p, cs = p ++ cs2 ∧ lbraceC ∉ p := by
  by_cases hfp : fp = []
  · exact ⟨[], by rw [fracPart_nil_snd h hfp, List.nil_append], by simp⟩
  · obtain ⟨r2, rfl, hfp2, hcs2⟩ := fracPart_shape h hfp
    refine ⟨'.' :: r2.takeWhile Char.isDigit, ?_, ?_⟩
    · rw [hcs2, List.cons_append, List.takeWhile_append_dropWhile]
    · intro hm
      rcases List.mem_cons.mp hm with he | hm2
      · exact absurd he (by decide)
      · exact not_mem_takeWhile_digit r2 hm2

/-- The characters `expPart` consumes contain no left brace. -/
theorem expPart_split {cs cs3 : List Char} {ev : Int} {tk : Bool}
    (h : expPart cs = (ev, tk, cs3)) : ∃ p, cs = p ++ cs3 ∧ lbraceC ∉ p := by
  cases tk with
  | false =>
    obtain ⟨h1, -⟩ := expPart_not_taken h
    exact ⟨[], by rw [h1, List.nil_append], by simp⟩
  | true =>
    cases cs with
    | nil => cases h
    | cons e r3 =>
      rw [expPart.eq_def] at h
      dsimp only at h
      by_cases he : e = 'e' ∨ e = 'E'
      · rw [if_pos he] at h
        cases r3 with
        | nil => cases h
        | cons s r4 =>
          dsimp only at h
          by_cases hs : s = '+' ∨ s = '-'
          · rw [if_pos hs] at h
            by_cases hd : (r4.takeWhile Char.isDigit).isEmpty
            · rw [if_pos hd] at h; cases h
            · rw [if_neg hd] at h
              injection h with h1 h23
              injection h23 with h2 h3
              refine ⟨e :: s :: r4.takeWhile Char.isDigit, ?_, ?_⟩
              · rw [← h3, List.cons_append, List.cons_append,
                  List.takeWhile_append_dropWhile]
              · intro hm
                rcases List.mem_cons.mp hm with he2 | hm2
                · rcases he with rfl | rfl <;> exact absurd he2 (by decide)
                · rcases List.mem_cons.mp hm2 with hs2 | hm3
                  · rcases hs with rfl | rfl <;> exact absurd hs2 (by decide)
                  · exact not_mem_takeWhile_digit r4 hm3
          · rw [if_neg hs] at h
            by_cases hd : ((s :: r4).takeWhile Char.isDigit).isEmpty
            · rw [if_pos hd] at h; cases h
            · rw [if_neg hd] at h
              injection h with h1 h23
              injection h23 with h2 h3
              refine ⟨e :: (s :: r4).takeWhile Char.isDigit, ?_, ?_⟩
              · rw [← h3, List.cons_append, List.takeWhile_append_dropWhile]
              · intro hm
                rcases List.mem_cons.mp hm with he2 | hm2
                · rcases he with rfl | rfl <;> exact absurd he2 (by decide)
                · exact not_mem_takeWhile_digit (s :: r4) hm2
      · rw [if_neg he] at h; cases h

/-- The characters `afterIntPart` consumes contain no left brace. -/
theorem afterIntPart_split {neg : Bool} {ip : Nat} {cs : List Char} {v : JSON}
    {rest : List Char} (h : afterIntPart neg ip cs = some (v, rest)) :
    ∃ p, cs = p ++ rest ∧ lbraceC ∉ p := by
  rw [afterIntPart] at h
  rcases hf : fracPart cs with ⟨fp, cs2⟩
  rw [hf] at h
  dsimp only at h
  rcases hq : expPart cs2 with ⟨ev, hexp, cs3⟩
  rw [hq] at h
  try dsimp only at h
  have hrest : rest = cs3 := by
    by_cases hcond : (fp.isEmpty = true ∧ ¬hexp = true)
    · rw [if_pos hcond] at h; cases h; rfl
    · rw [if_neg hcond] at h
      try dsimp only at h
      by_cases hk : ((fp.length : Int) - ev) ≤ 0
      · rw [if_pos hk] at h; cases h; rfl
      · rw [if_neg hk] at h; cases h; rfl
  obtain ⟨p1, hp1, hp1n⟩ := fracPart_split hf
  obtain ⟨p2, hp2, hp2n⟩ := expPart_split hq
  refine ⟨p1 ++ p2, ?_, ?_⟩
  · rw [hrest, hp1, hp2, List.append_assoc]
  · intro hm
    rcases List.mem_append.mp hm with h1 | h2
    · exact hp1n h1
    · exact hp2n h2

/-- The characters a number token consumes contain no left brace. -/
theorem parseNum_split {cs : List Char} {v : JSON} {rest : List Char}
    (h : parseNum cs = some (v, rest)) :
    ∃ p, cs = p ++ rest ∧ lbraceC ∉ p := by
  rw [parseNum.eq_def] at h
  cases cs with
  | nil => simp at h
  | cons c r =>
    dsimp only at h
    by_cases hc : c = '-'
    · rw [if_pos hc] at h
      try dsimp only at h
      cases r with
      | nil => simp at h
      | cons c1 r1 =>
        try dsimp only at h
        by_cases h0 : c1 = '0'
        · rw [if_pos h0] at h
          obtain ⟨p, hp, hpn⟩ := afterIntPart_split h
          refine ⟨c :: c1 :: p, by rw [List.cons_append, List.cons_append, ← hp], ?_⟩
          intro hm
          rcases List.mem_cons.mp hm with h1 | hm2
          · rw [hc] at h1; exact absurd h1 (by decide)
          · rcases List.mem_cons.mp hm2 with h2 | hm3
            · rw [h0] at h2; exact absurd h2 (by decide)
            · exact hpn hm3
        · rw [if_neg h0] at h
          by_cases hd : c1.isDigit
          · rw [if_pos hd] at h
            obtain ⟨p, hp, hpn⟩ := afterIntPart_split h
            refine ⟨c :: c1 :: (r1.takeWhile Char.isDigit ++ p), ?_, ?_⟩
            · rw [List.cons_append, List.cons_append, List.append_assoc, ← hp,
                List.takeWhile_append_dropWhile]
            · intro hm
              rcases List.mem_cons.mp hm with h1 | hm2
              · rw [hc] at h1; exact absurd h1 (by decide)
              · rcases List.mem_cons.mp hm2 with h2 | hm3
                · rw [← h2] at hd
                  exact absurd hd (by decide)
                · rcases List.mem_append.mp hm3 with h3 | h4
                  · exact not_mem_takeWhile_digit r1 h3
                  · exact hpn h4
          · rw [if_neg hd] at h
            simp at h
    · rw [if_neg hc] at h
      try dsimp only at h
      by_cases h0 : c = '0'
      · rw [if_pos h0] at h
        obtain ⟨p, hp, hpn⟩ := afterIntPart_split h
        refine ⟨c :: p, by rw [List.cons_append, ← hp], ?_⟩
        intro hm
        rcases List.mem_cons.mp hm with h1 | hm2
        · rw [h0] at h1; exact absurd h1 (by decide)
        · exact hpn hm2
      · rw [if_neg h0] at h
        by_cases hd : c.isDigit
        · rw [if_pos hd] at h
          obtain ⟨p, hp, hpn⟩ := afterIntPart_split h
          refine ⟨c :: (r.takeWhile Char.isDigit ++ p), ?_, ?_⟩
          · rw [List.cons_append, List.append_assoc, ← hp,
              List.takeWhile_append_dropWhile]
          · intro hm
            rcases List.mem_cons.mp hm with h1 | hm2
            · rw [← h1] at hd
              exact absurd hd (by decide)
            · rcases List.mem_append.mp hm2 with h3 | h4
              · exact not_mem_takeWhile_digit r h3
              · exact hpn h4
        · rw [if_neg hd] at h
          simp at h

/-- The characters a literal or number token consumes contain no left
brace. -/
theorem parseLitOrNum_split {cs : List Char} {v : JSON} {rest : List Char}
    (h : parseLitOrNum cs = some (v, rest)) :
    ∃ p, cs = p ++ rest ∧ lbraceC ∉ p := by
  rw [parseLitOrNum.eq_def] at h
  split at h
  · cases h
    exact ⟨['t', 'r', 'u', 'e'], rfl, by decide⟩
  · cases h
    exact ⟨['f', 'a', 'l', 's', 'e'], rfl, by decide⟩
  · cases h
    exact ⟨['n', 'u', 'l', 'l'], rfl, by decide⟩
  · exact parseNum_split h

/-- `braceDepth` adds over appends. -/
theorem braceDepth_append (a b : List Char) :
    braceDepth (a ++ b) = braceDepth a + braceDepth b := by
  simp only [braceDepth, List.count_append]
  push_cast
  ring

/-- `braceDepth` over a cons. -/
theorem braceDepth_cons (c : Char) (l : List Char) :
    braceDepth (c :: l) =
      (if c = lbraceC then 1 else if c = rbraceC then (-1 : Int) else 0) +
        braceDepth l := by
  by_cases h1 : c = lbraceC
  · subst h1
    rw [if_pos rfl]
    simp only [braceDepth, List.count_cons_self,
      List.count_cons_of_ne (by decide : rbraceC ≠ lbraceC)]
    push_cast
    ring
  · by_cases h2 : c = rbraceC
    · subst h2
      rw [if_neg h1, if_pos rfl]
      simp only [braceDepth, List.count_cons_self,
        List.count_cons_of_ne (by decide : lbraceC ≠ rbraceC)]
      push_cast
      ring
    · rw [if_neg h1, if_neg h2]
      simp only [braceDepth, List.count_cons_of_ne (fun he => h1 he.symm),
        List.count_cons_of_ne (fun he => h2 he.symm)]
      ring

/-- `braceDepth` of one more character of a prefix. -/
theorem braceDepth_take_succ {J : List Char} {k : Nat} (hk : k < J.length) :
    braceDepth (J.take (k + 1)) = braceDepth (J.take k) +
      (if J[k] = lbraceC then 1 else if J[k] = rbraceC then (-1 : Int) else 0) := by
  rw [← List.take_concat_get J k hk, List.concat_eq_append, braceDepth_append,
    braceDepth_cons]
  simp [braceDepth]

/-- Unpacking `innerDepthPos`. -/
theorem innerDepthPos_spec {J : List Char} (h : innerDepthPos J = true)
    {k : Nat} (hk : k < J.length) (hk0 : k ≠ 0) :
    0 < braceDepth (J.take k) := by
  rw [innerDepthPos] at h
  have h2 := List.all_eq_true.mp h k (List.mem_range.mpr hk)
  simp only [Bool.or_eq_true, decide_eq_true_eq] at h2
  rcases h2 with h0 | hpos
  · exact absurd h0 hk0
  · exact hpos

/-- What membership in a `proseSafe` text says about a character. -/
theorem proseSafe_mem {l : List Char} (h : proseSafe l = true) {c : Char}
    (hm : c ∈ l) :
    c ≠ lbraceC ∧ c ≠ rbraceC ∧ c ≠ '[' ∧ c ≠ ']' ∧ c ≠ quoteC ∧ c ≠ btickC := by
  have h0 := List.all_eq_true.mp h c hm
  simp only [Bool.not_eq_true', Bool.or_eq_false_iff,
    decide_eq_false_iff_not] at h0
  exact ⟨h0.1.1.1.1.1, h0.1.1.1.1.2, h0.1.1.1.2, h0.1.1.2, h0.1.2, h0.2⟩

/-- Head and tail of a `proseSafe` text. -/
theorem proseSafe_head {c : Char} {t : List Char}
    (h : proseSafe (c :: t) = true) :
    c ≠ lbraceC ∧ c ≠ rbraceC ∧ proseSafe t = true := by
  obtain ⟨h1, h2, -, -, -, -⟩ := proseSafe_mem h (List.mem_cons_self c t)
  refine ⟨h1, h2, ?_⟩
  rw [proseSafe] at h ⊢
  simp only [List.all_cons, Bool.and_eq_true] at h
  exact h.2

/-- Whitespace skipping jumps over an all-whitespace first part. -/
theorem skipJWs_all_append {pre : List Char} (h : pre.all isJWs = true)
    (x : List Char) : skipJWs (pre ++ x) = skipJWs x := by
  induction pre with
  | nil => rfl
  | cons c t ih =>
    simp only [List.all_cons, Bool.and_eq_true] at h
    rw [List.cons_append, skipJWs, List.dropWhile_cons_of_pos h.1]
    exact ih h.2

/-- A head that is not an object, array or string opener sends `parseVal`
to the literal/number alternative. -/
theorem parseVal_prose_head {f : Nat} {c : Char} {t : List Char}
    (h1 : c ≠ lbraceC) (h2 : c ≠ '[') (h3 : c ≠ quoteC) :
    parseVal (f + 1) (c :: t) = parseLitOrNum (c :: t) := by
  rw [parseVal]
  try dsimp only
  rw [if_neg h1, if_neg h2, if_neg h3]

/-- A string built from a nonempty character list is nonempty. -/
theorem string_mk_cons_isEmpty (c : Char) (l : List Char) :
    (String.mk (c :: l)).isEmpty = false := by
  cases hx : (String.mk (c :: l)).isEmpty
  · rfl
  · exact absurd (congrArg String.data ((String.isEmpty_iff _).mp hx))
      (List.cons_ne_nil c l)

/-- Unpacking a successful `json.loads` of an object text: the parser
consumes it up to trailing whitespace. -/
theorem json_loads_chars_obj_elim {Jt : List Char} {v : JSON}
    (hJ : json_loads_chars (lbraceC :: Jt) = some v) :
    ∃ restJ, parseVal (2 * (lbraceC :: Jt).length + 2) (lbraceC :: Jt) =
        some (v, restJ) ∧ restJ.all isJWs = true := by
  rw [json_loads_chars] at hJ
  have hsJ : skipJWs (lbraceC :: Jt) = lbraceC :: Jt := by
    rw [skipJWs, List.dropWhile_cons_of_neg (by decide)]
  rw [hsJ] at hJ
  cases hp : parseVal (2 * (lbraceC :: Jt).length + 2) (lbraceC :: Jt) with
  | none => rw [hp] at hJ; cases hJ
  | some vr =>
    obtain ⟨v0, restJ⟩ := vr
    rw [hp] at hJ
    try dsimp only at hJ
    by_cases hre : (skipJWs restJ).isEmpty = true
    · rw [if_pos hre] at hJ
      cases hJ
      refine ⟨restJ, rfl, ?_⟩
      have hnil : restJ.dropWhile isJWs = [] := by
        cases hsk : restJ.dropWhile isJWs with
        | nil => rfl
        | cons a b =>
          rw [skipJWs, hsk] at hre
          cases hre
      rw [List.all_eq_true]
      intro x hx
      exact List.dropWhile_eq_nil_iff.mp hnil x hx
    · rw [if_neg hre] at hJ
      cases hJ

/-- `json.loads` still accepts an object text padded by whitespace on
both sides. -/
theorem json_loads_chars_ws_pad {pre Jt post : List Char} {v : JSON}
    (hpw : pre.all isJWs = true) (hpo : post.all isJWs = true)
    (hJ : json_loads_chars (lbraceC :: Jt) = some v) :
    json_loads_chars (pre ++ (lbraceC :: Jt) ++ post) = some v := by
  obtain ⟨restJ, hp, hra⟩ := json_loads_chars_obj_elim hJ
  have hfuel : 2 * (lbraceC :: Jt).length + 2 ≤
      2 * (pre ++ (lbraceC :: Jt) ++ post).length + 2 := by
    simp only [List.length_append, List.length_cons]
    omega
  have hp2 := (parse_mono _ _ hfuel).1 _ _ hp
  have hp3 := (parse_ext (2 * (pre ++ (lbraceC :: Jt) ++ post).length + 2)).1
    (lbraceC :: Jt) v restJ post hp2 (Or.inr ⟨lbraceC, rfl, Or.inl rfl⟩)
  have hsk : skipJWs (pre ++ (lbraceC :: Jt) ++ post) =
      (lbraceC :: Jt) ++ post := by
    rw [List.append_assoc, skipJWs_all_append hpw, List.cons_append, skipJWs,
      List.dropWhile_cons_of_neg (by decide)]
  rw [json_loads_chars, hsk, hp3]
  dsimp only
  have htr : skipJWs (restJ ++ post) = [] := by
    rw [skipJWs_all_append hra, skipJWs]
    exact List.dropWhile_eq_nil_iff.mpr (fun x hx => List.all_eq_true.mp hpo x hx)
  rw [htr]
  rfl

/-- `json.loads` rejects an object text padded by prose that is not all
whitespace: the trailing (or embedded) text gets in the way. -/
theorem json_loads_chars_prose_pad {pre Jt post : List Char} {v : JSON}
    (hpre : proseSafe pre = true)
    (hJ : json_loads_chars (lbraceC :: Jt) = some v)
    (hnw : pre.all isJWs = false ∨ post.all isJWs = false) :
    json_loads_chars (pre ++ (lbraceC :: Jt) ++ post) = none := by
  by_cases hpw : pre.all isJWs = true
  · have hpo : post.all isJWs = false := by
      rcases hnw with h | h
      · rw [hpw] at h; cases h
      · exact h
    obtain ⟨restJ, hp, hra⟩ := json_loads_chars_obj_elim hJ
    have hfuel : 2 * (lbraceC :: Jt).length + 2 ≤
        2 * (pre ++ (lbraceC :: Jt) ++ post).length + 2 := by
      simp only [List.length_append, List.length_cons]
      omega
    have hp2 := (parse_mono _ _ hfuel).1 _ _ hp
    have hp3 := (parse_ext (2 * (pre ++ (lbraceC :: Jt) ++ post).length + 2)).1
      (lbraceC :: Jt) v restJ post hp2 (Or.inr ⟨lbraceC, rfl, Or.inl rfl⟩)
    have hsk : skipJWs (pre ++ (lbraceC :: Jt) ++ post) =
        (lbraceC :: Jt) ++ post := by
      rw [List.append_assoc, skipJWs_all_append hpw, List.cons_append, skipJWs,
        List.dropWhile_cons_of_neg (by decide)]
    rw [json_loads_chars, hsk, hp3]
    dsimp only
    rw [skipJWs_all_append hra]
    obtain ⟨x, hxmem, hxw⟩ : ∃ x ∈ post, ¬(isJWs x = true) := by
      by_contra hcon
      push_neg at hcon
      rw [List.all_eq_true.mpr hcon] at hpo
      cases hpo
    cases hskp : skipJWs post with
    | nil =>
      exfalso
      rw [skipJWs] at hskp
      exact hxw (List.dropWhile_eq_nil_iff.mp hskp x hxmem)
    | cons a b => rfl
  · have hne : pre.dropWhile isJWs ≠ [] := by
      intro hn
      exact hpw (List.all_eq_true.mpr (List.dropWhile_eq_nil_iff.mp hn))
    obtain ⟨c, pt, hdw⟩ : ∃ c pt, pre.dropWhile isJWs = c :: pt := by
      cases hx : pre.dropWhile isJWs with
      | nil => exact absurd hx hne
      | cons a b => exact ⟨a, b, rfl⟩
    have hcmem : c ∈ pre := mem_of_dropWhile_cons hdw
    obtain ⟨hc1, -, hc2, -, hc3, -⟩ := proseSafe_mem hpre hcmem
    have hsk : skipJWs (pre ++ (lbraceC :: Jt) ++ post) =
        c :: (pt ++ ((lbraceC :: Jt) ++ post)) := by
      rw [List.append_assoc, skipJWs,
        (dropTake_append_ne hne ((lbraceC :: Jt) ++ post)).2, hdw,
        List.cons_append]
    rw [json_loads_chars, hsk]
    rw [show 2 * (pre ++ (lbraceC :: Jt) ++ post).length + 2 =
      (2 * (pre ++ (lbraceC :: Jt) ++ post).length + 1) + 1 from rfl]
    rw [parseVal_prose_head hc1 hc2 hc3]
    cases hpl : parseLitOrNum (c :: (pt ++ ((lbraceC :: Jt) ++ post))) with
    | none => rfl
    | some wr =>
      obtain ⟨w, rest⟩ := wr
      dsimp only
      obtain ⟨p, hsplit, hnmem⟩ := parseLitOrNum_split hpl
      have hbmem : lbraceC ∈ rest := by
        have hin : lbraceC ∈ c :: (pt ++ ((lbraceC :: Jt) ++ post)) :=
          List.mem_cons_of_mem c (List.mem_append.mpr (Or.inr
            (List.mem_append.mpr (Or.inl (List.mem_cons_self _ _)))))
        rw [hsplit] at hin
        rcases List.mem_append.mp hin with hl | hr
        · exact absurd hl hnmem
        · exact hr
      cases hskr : skipJWs rest with
      | nil =>
        exfalso
        rw [skipJWs] at hskr
        exact absurd (List.dropWhile_eq_nil_iff.mp hskr lbraceC hbmem)
          (by decide)
      | cons a b => rfl

/-- The brace scan walks over prose at depth zero without recording a
start. -/
theorem scanGo_prose {full rest : List Char} :
    ∀ {l : List Char}, proseSafe l = true → ∀ i,
      scanGo lbraceC rbraceC full (l ++ rest) i 0 none =
        scanGo lbraceC rbraceC full rest (i + l.length) 0 none := by
  intro l
  induction l with
  | nil => intro _ i; simp
  | cons c t ih =>
    intro hl i
    obtain ⟨hc1, hc2, hts⟩ := proseSafe_head hl
    rw [List.cons_append, scanGo, if_neg hc1, if_neg (fun hh => hh.2 rfl),
      ih hts (i + 1),
      show i + (c :: t).length = i + 1 + t.length from by
        simp only [List.length_cons]; omega]

/-- Inside the recorded object span, the brace scan keeps a positive
depth equal to the span's brace balance, and closes exactly at the
span's final brace, where it loads the recorded slice. -/
theorem scanGo_inside {J post : List Char} {v : JSON} {s : Nat}
    {full : List Char}
    (hslice : sliceChars full s (s + J.length) = J)
    (hJ : json_loads_chars J = some v)
    (hinner : innerDepthPos J = true)
    (hbal : braceDepth J = 0) :
    ∀ (m k d : Nat), J.length - k = m → 1 ≤ k → k < J.length →
      (d : Int) = braceDepth (J.take k) →
      scanGo lbraceC rbraceC full (J.drop k ++ post) (s + k) d (some s) =
        some v := by
  intro m
  induction m with
  | zero =>
    intro k d hm hk1 hkn hd
    exfalso
    omega
  | succ m ih =>
    intro k d hm hk1 hkn hd
    have hdrop : J.drop k = J[k] :: J.drop (k + 1) :=
      List.drop_eq_getElem_cons hkn
    have hdpos : 0 < braceDepth (J.take k) :=
      innerDepthPos_spec hinner hkn (by omega)
    have hd1 : 1 ≤ d := by omega
    rw [hdrop, List.cons_append, scanGo]
    by_cases h1 : J[k] = lbraceC
    · rw [if_pos h1, if_neg (by omega : ¬d = 0)]
      have hdepth1 : ((d + 1 : Nat) : Int) = braceDepth (J.take (k + 1)) := by
        rw [braceDepth_take_succ hkn, if_pos h1]
        push_cast
        omega
      have hklt : k + 1 < J.length := by
        by_contra hge
        have hk1n : k + 1 = J.length := by omega
        rw [hk1n, List.take_length] at hdepth1
        rw [hbal] at hdepth1
        omega
      exact ih (k + 1) (d + 1) (by omega) (by omega) hklt hdepth1
    · rw [if_neg h1]
      by_cases h2 : J[k] = rbraceC
      · rw [if_pos (⟨h2, by omega⟩ : J[k] = rbraceC ∧ d ≠ 0)]
        by_cases hd1e : d = 1
        · rw [if_pos hd1e]
          by_cases hkend : k + 1 = J.length
          · dsimp only
            rw [show s + k + 1 = s + J.length from by omega, hslice, hJ]
          · exfalso
            have hdepth1 : braceDepth (J.take (k + 1)) = 0 := by
              rw [braceDepth_take_succ hkn, if_neg h1, if_pos h2]
              omega
            have := innerDepthPos_spec hinner
              (by omega : k + 1 < J.length) (by omega)
            omega
        · rw [if_neg hd1e]
          have hdepth1 : ((d - 1 : Nat) : Int) = braceDepth (J.take (k + 1)) := by
            rw [braceDepth_take_succ hkn, if_neg h1, if_pos h2]
            omega
          have hklt : k + 1 < J.length := by
            by_contra hge
            have hk1n : k + 1 = J.length := by omega
            rw [hk1n, List.take_length, hbal] at hdepth1
            omega
          exact ih (k + 1) (d - 1) (by omega) (by omega) hklt hdepth1
      · rw [if_neg (fun hh => h2 hh.1)]
        have hdepth1 : (d : Int) = braceDepth (J.take (k + 1)) := by
          rw [braceDepth_take_succ hkn, if_neg h1, if_neg h2]
          omega
        have hklt : k + 1 < J.length := by
          by_contra hge
          have hk1n : k + 1 = J.length := by omega
          rw [hk1n, List.take_length, hbal] at hdepth1
          omega
        exact ih (k + 1) d (by omega) (by omega) hklt hdepth1

/-- The full brace scan of prose + object + prose returns the object. -/
theorem scanPair_object {pre Jt post : List Char} {v : JSON}
    (hpre : proseSafe pre = true)
    (hJ : json_loads_chars (lbraceC :: Jt) = some v)
    (hinner : innerDepthPos (lbraceC :: Jt) = true)
    (hbal : braceDepth (lbraceC :: Jt) = 0) :
    scanPair lbraceC rbraceC (pre ++ (lbraceC :: Jt) ++ post) = some v := by
  have hJt : Jt ≠ [] := by
    intro hn
    rw [hn] at hbal
    exact absurd hbal (by decide)
  have hpos : 0 < Jt.length := List.length_pos.mpr hJt
  have h1len : 1 < (lbraceC :: Jt).length := by
    simp only [List.length_cons]
    omega
  have hslice : sliceChars (pre ++ ((lbraceC :: Jt) ++ post)) pre.length
      (pre.length + (lbraceC :: Jt).length) = lbraceC :: Jt := by
    rw [sliceChars, List.drop_left, Nat.add_sub_cancel_left, List.take_left]
  rw [scanPair, List.append_assoc, scanGo_prose hpre 0, Nat.zero_add,
    List.cons_append, scanGo, if_pos rfl, if_pos rfl]
  exact scanGo_inside hslice hJ hinner hbal Jt.length 1 1
    (by simp only [List.length_cons]; omega) (le_refl 1) h1len
    (by rw [show (lbraceC :: Jt).take 1 = [lbraceC] from rfl]; decide)

/-- C5 (counterexample to the claim as stated): the text consists of the
single valid JSON object `\x7b"a": 1\x7d` preceded by the prose `"\x7b "`, yet
`extract_json` returns `None`: the whole-text parse fails, and the brace
scan records the stray prose brace as the span start, so its depth never
returns to zero and no slice is ever tried.  So arbitrary prose around
the object is not returned exactly; prose containing braces can starve
the scan. -/
theorem extract_json_misses_object_after_stray_brace :
    extract_json "\x7b \x7b\"a\": 1\x7d" = none ∧
      json_loads "\x7b\"a\": 1\x7d" = some (JSON.obj [("a", JSON.num 1)]) :=
  ⟨rfl, rfl⟩

/-- C5 (corrected): if the text decomposes as prose ++ object ++ prose
where the prose contains no braces, brackets, double quotes or
backticks, and the object text parses under `json.loads`, starts with a
left brace, contains no backtick, is brace-balanced, and keeps a
positive brace balance on every proper prefix, then `extract_json`
returns exactly the parsed object: via the whole-text parse when the
prose is all whitespace, else via the brace scan. -/
theorem extract_json_object_in_safe_prose
    {pre J post : List Char} {v : JSON}
    (hpre : proseSafe pre = true) (hpost : proseSafe post = true)
    (hbt : btickC ∉ J) (hJ : json_loads_chars J = some v)
    (hhead : J.head? = some lbraceC) (hinner : innerDepthPos J = true)
    (hbal : braceDepth J = 0) :
    extract_json (String.mk (pre ++ J ++ post)) = some v := by
  obtain ⟨Jt, rfl⟩ : ∃ Jt, J = lbraceC :: Jt := by
    cases J with
    | nil => cases hhead
    | cons a b =>
      simp only [List.head?_cons, Option.some.injEq] at hhead
      exact ⟨b, by rw [hhead]⟩
  have hemp : (String.mk (pre ++ (lbraceC :: Jt) ++ post)).isEmpty = false := by
    cases pre with
    | nil =>
      rw [List.nil_append, List.cons_append]
      exact string_mk_cons_isEmpty _ _
    | cons p pt =>
      rw [List.cons_append, List.cons_append]
      exact string_mk_cons_isEmpty _ _
  have hbtall : btickC ∉ pre ++ (lbraceC :: Jt) ++ post := by
    intro hm
    rcases List.mem_append.mp hm with hm1 | hm3
    · rcases List.mem_append.mp hm1 with hm1a | hm2
      · exact (proseSafe_mem hpre hm1a).2.2.2.2.2 rfl
      · exact hbt hm2
    · exact (proseSafe_mem hpost hm3).2.2.2.2.2 rfl
  simp only [extract_json, hemp]
  rw [if_neg Bool.false_ne_true]
  rw [stripFences_id hbtall]
  by_cases hws : pre.all isJWs = true ∧ post.all isJWs = true
  · rw [json_loads_chars_ws_pad hws.1 hws.2 hJ]
  · have hnw : pre.all isJWs = false ∨ post.all isJWs = false := by
      rcases Bool.eq_false_or_eq_true (pre.all isJWs) with h | h
      · rcases Bool.eq_false_or_eq_true (post.all isJWs) with h2 | h2
        · exact absurd ⟨h, h2⟩ hws
        · exact Or.inr h2
      · exact Or.inl h
    rw [json_loads_chars_prose_pad hpre hJ hnw]
    try dsimp only
    rw [scanPair_object hpre hJ hinner hbal]

/-- Witness for the corrected C5 theorem at a concrete decomposition:
prose, then an object, then prose. -/
theorem extract_json_object_in_safe_prose_witness :
    extract_json (String.mk (("Result: ".data) ++ ("\x7b\"a\": 1\x7d".data) ++
      (" Done.".data))) = some (JSON.obj [("a", JSON.num 1)]) :=
  extract_json_object_in_safe_prose (by decide) (by decide) (by decide)
    (by rfl) (by rfl) (by decide) (by decide)

end Coach
